import Mathlib

/-!
Verification of the query resolution, ranking and output-shaping pipeline of
the safety_glass repository.  Python strings are modelled as `List Char`;
the relevant Python string primitives (`str.strip`, `str.lower`,
`str.split`, `" ".join`) are embedded below, followed by the search view
(`api/views.py`), the bot formatter (`bot_app/formatters.py`) and the
message chunker (`bot_app/main.py`).
-/

namespace SafetyGlass

/-- Whitespace predicate matching Python's `str.strip` / `str.split`
(ASCII whitespace: space, tab, newline, carriage return, vertical tab,
form feed). -/
def isSpaceChar (c : Char) : Bool :=
  c == ' ' || c == '\t' || c == '\n' || c == '\r' ||
  c == Char.ofNat 11 || c == Char.ofNat 12

/-- Negation of `isSpaceChar`, used by the word splitter. -/
def notSpace (c : Char) : Bool := !(isSpaceChar c)

/-- Case-folding table for Python's `str.lower` restricted to the
alphabets that occur in this code base (ASCII Latin and Russian
Cyrillic, including Ё). -/
def lowerPairs : List (Char × Char) :=
  [('A','a'),('B','b'),('C','c'),('D','d'),('E','e'),('F','f'),('G','g'),
   ('H','h'),('I','i'),('J','j'),('K','k'),('L','l'),('M','m'),('N','n'),
   ('O','o'),('P','p'),('Q','q'),('R','r'),('S','s'),('T','t'),('U','u'),
   ('V','v'),('W','w'),('X','x'),('Y','y'),('Z','z'),
   ('А','а'),('Б','б'),('В','в'),('Г','г'),('Д','д'),('Е','е'),('Ж','ж'),
   ('З','з'),('И','и'),('Й','й'),('К','к'),('Л','л'),('М','м'),('Н','н'),
   ('О','о'),('П','п'),('Р','р'),('С','с'),('Т','т'),('У','у'),('Ф','ф'),
   ('Х','х'),('Ц','ц'),('Ч','ч'),('Ш','ш'),('Щ','щ'),('Ъ','ъ'),('Ы','ы'),
   ('Ь','ь'),('Э','э'),('Ю','ю'),('Я','я'),('Ё','ё')]

/-- Lower-case a single character (model of Python `str.lower`, per
character). -/
def lowerChar (c : Char) : Char := (lowerPairs.lookup c).getD c

/-- Model of Python `s.lower()`. -/
def pyLower (s : List Char) : List Char := s.map lowerChar

/-- Model of Python `s.strip()`: drop whitespace from both ends. -/
def pyStrip (s : List Char) : List Char :=
  ((s.dropWhile isSpaceChar).reverse.dropWhile isSpaceChar).reverse

/-- Model of Python `s.rstrip()`: drop whitespace from the right end. -/
def pyRStrip (s : List Char) : List Char :=
  (s.reverse.dropWhile isSpaceChar).reverse

/-- Accumulator-based splitter behind `words`; `acc` holds the reversed
current word. -/
def wordsAux : List Char → List Char → List (List Char)
  | [], acc => if acc.isEmpty then [] else [acc.reverse]
  | c :: cs, acc =>
    if isSpaceChar c then
      if acc.isEmpty then wordsAux cs [] else acc.reverse :: wordsAux cs []
    else wordsAux cs (c :: acc)

/-- Model of Python `s.split()` (no argument): split on whitespace runs,
discarding empty pieces. -/
def words (s : List Char) : List (List Char) := wordsAux s []

/-- Running `wordsAux` with a non-empty accumulator prepends the pending
word completed by the next maximal run of non-space characters. -/
theorem wordsAux_acc (s : List Char) : ∀ (a : Char) (acc : List Char),
    wordsAux s (a :: acc) =
      ((a :: acc).reverse ++ s.takeWhile notSpace) ::
        wordsAux (s.dropWhile notSpace) [] := by
  induction s with
  | nil => intro a acc; simp [wordsAux]
  | cons c cs ih =>
    intro a acc
    by_cases hc : isSpaceChar c = true
    · have hns : notSpace c = false := by simp [notSpace, hc]
      simp [wordsAux, hc, hns, List.takeWhile_cons, List.dropWhile_cons]
    · have hc' : isSpaceChar c = false := by simpa using hc
      have hns : notSpace c = true := by simp [notSpace, hc']
      simp only [wordsAux, hc', if_neg, Bool.false_eq_true, not_false_iff,
        List.takeWhile_cons, List.dropWhile_cons, hns, if_true]
      rw [ih c (a :: acc)]
      simp

/-- Unfolding lemma: a leading space character is skipped. -/
theorem words_cons_space {c : Char} (cs : List Char)
    (hc : isSpaceChar c = true) : words (c :: cs) = words cs := by
  simp [words, wordsAux, hc]

/-- Unfolding lemma: a leading non-space character starts a word that
extends over the maximal run of non-space characters. -/
theorem words_cons_notSpace {c : Char} (cs : List Char)
    (hc : isSpaceChar c = false) :
    words (c :: cs) =
      (c :: cs.takeWhile notSpace) :: words (cs.dropWhile notSpace) := by
  simp only [words, wordsAux, hc, Bool.false_eq_true, if_false]
  rw [wordsAux_acc]
  simp

@[simp] theorem words_nil : words [] = [] := rfl

theorem takeWhile_append_pos {α : Type} {p : α → Bool} :
    ∀ {a : List α} (b : List α), (∀ x ∈ a, p x = true) →
      (a ++ b).takeWhile p = a ++ b.takeWhile p := by
  intro a
  induction a with
  | nil => intro b _; simp
  | cons x a' ih =>
    intro b h
    have hx : p x = true := h x (by simp)
    simp only [List.cons_append, List.takeWhile_cons, hx, if_true]
    rw [ih b (fun y hy => h y (by simp [hy]))]

theorem dropWhile_append_pos {α : Type} {p : α → Bool} :
    ∀ {a : List α} (b : List α), (∀ x ∈ a, p x = true) →
      (a ++ b).dropWhile p = b.dropWhile p := by
  intro a
  induction a with
  | nil => intro b _; simp
  | cons x a' ih =>
    intro b h
    have hx : p x = true := h x (by simp)
    simp only [List.cons_append, List.dropWhile_cons, hx, if_true]
    exact ih b (fun y hy => h y (by simp [hy]))

theorem takeWhile_append_neg {α : Type} {p : α → Bool} :
    ∀ {a : List α} (b : List α), (∃ x ∈ a, p x = false) →
      (a ++ b).takeWhile p = a.takeWhile p := by
  intro a
  induction a with
  | nil => intro b h; simp at h
  | cons x a' ih =>
    intro b h
    by_cases hx : p x = true
    · simp only [List.cons_append, List.takeWhile_cons, hx, if_true]
      obtain ⟨y, hy, hpy⟩ := h
      rcases List.mem_cons.mp hy with hy | hy
      · rw [hy] at hpy; rw [hx] at hpy; exact absurd hpy (by simp)
      · rw [ih b ⟨y, hy, hpy⟩]
    · have hx' : p x = false := by simpa using hx
      simp [List.takeWhile_cons, hx']

theorem dropWhile_append_neg {α : Type} {p : α → Bool} :
    ∀ {a : List α} (b : List α), (∃ x ∈ a, p x = false) →
      (a ++ b).dropWhile p = a.dropWhile p ++ b := by
  intro a
  induction a with
  | nil => intro b h; simp at h
  | cons x a' ih =>
    intro b h
    by_cases hx : p x = true
    · simp only [List.cons_append, List.dropWhile_cons, hx, if_true]
      obtain ⟨y, hy, hpy⟩ := h
      rcases List.mem_cons.mp hy with hy | hy
      · rw [hy] at hpy; rw [hx] at hpy; exact absurd hpy (by simp)
      · exact ih b ⟨y, hy, hpy⟩
    · have hx' : p x = false := by simpa using hx
      simp [List.dropWhile_cons, hx']

/-- Splitting distributes over a whitespace junction: a single space
character separates the words of the two sides. -/
theorem words_append_space {c : Char} (hc : isSpaceChar c = true) :
    ∀ (a b : List Char), words (a ++ c :: b) = words a ++ words b := by
  suffices h : ∀ (n : Nat) (a b : List Char), a.length ≤ n →
      words (a ++ c :: b) = words a ++ words b by
    intro a b; exact h a.length a b le_rfl
  intro n
  induction n with
  | zero =>
    intro a b ha
    have : a = [] := by cases a <;> simp_all
    subst this
    simp [words_cons_space _ hc]
  | succ n ih =>
    intro a b ha
    match a with
    | [] => simp [words_cons_space _ hc]
    | x :: a' =>
      by_cases hx : isSpaceChar x = true
      · rw [List.cons_append, words_cons_space _ hx, words_cons_space _ hx,
          ih a' b (by simp at ha; omega)]
      · have hx' : isSpaceChar x = false := by simpa using hx
        rw [List.cons_append, words_cons_notSpace _ hx', words_cons_notSpace _ hx']
        have hcns : notSpace c = false := by simp [notSpace, hc]
        by_cases hall : ∀ y ∈ a', notSpace y = true
        · have h1 : (a' ++ c :: b).takeWhile notSpace = a' := by
            rw [takeWhile_append_pos _ hall]
            simp [List.takeWhile_cons, hcns]
          have h2 : (a' ++ c :: b).dropWhile notSpace = c :: b := by
            rw [dropWhile_append_pos _ hall]
            simp [List.dropWhile_cons, hcns]
          have h3 : a'.takeWhile notSpace = a' :=
            List.takeWhile_eq_self_iff.mpr hall
          have h4 : a'.dropWhile notSpace = [] :=
            List.dropWhile_eq_nil_iff.mpr hall
          rw [h1, h2, h3, h4, words_cons_space _ hc, words_nil]
          simp
        · push_neg at hall
          obtain ⟨y, hy, hpy⟩ := hall
          have hpy' : notSpace y = false := by simpa using hpy
          rw [takeWhile_append_neg _ ⟨y, hy, hpy'⟩,
            dropWhile_append_neg _ ⟨y, hy, hpy'⟩]
          have hlen : (a'.dropWhile notSpace).length ≤ n := by
            have h1 := List.Sublist.length_le (List.dropWhile_sublist (l := a') notSpace)
            simp at ha; omega
          rw [ih _ b hlen]
          simp

/-- A string splits into no words exactly when it is all whitespace. -/
theorem words_eq_nil_iff {s : List Char} :
    words s = [] ↔ ∀ c ∈ s, isSpaceChar c = true := by
  induction s with
  | nil => simp
  | cons c cs ih =>
    by_cases hc : isSpaceChar c = true
    · rw [words_cons_space _ hc]
      simp [hc, ih]
    · have hc' : isSpaceChar c = false := by simpa using hc
      rw [words_cons_notSpace _ hc']
      simp [hc']

/-- Prepending all-whitespace text does not change the word list. -/
theorem words_space_append {t : List Char} (a : List Char)
    (h : ∀ x ∈ t, isSpaceChar x = true) : words (t ++ a) = words a := by
  induction t with
  | nil => simp
  | cons c t' ih =>
    rw [List.cons_append, words_cons_space _ (h c (by simp))]
    exact ih (fun x hx => h x (by simp [hx]))

/-- Appending all-whitespace text does not change the word list. -/
theorem words_append_space_right {t : List Char} (a : List Char)
    (h : ∀ x ∈ t, isSpaceChar x = true) : words (a ++ t) = words a := by
  match t with
  | [] => simp
  | c :: t' =>
    rw [words_append_space (h c (by simp)) a t']
    have ht' : words t' = [] :=
      words_eq_nil_iff.mpr (fun x hx => h x (List.mem_cons_of_mem _ hx))
    rw [ht']
    simp

/-- A non-empty string with no whitespace is a single word. -/
theorem words_no_space {a : List Char} (hne : a ≠ [])
    (h : ∀ x ∈ a, isSpaceChar x = false) : words a = [a] := by
  match a with
  | [] => exact absurd rfl hne
  | x :: a' =>
    have hx : isSpaceChar x = false := h x (by simp)
    rw [words_cons_notSpace _ hx]
    have h1 : a'.takeWhile notSpace = a' :=
      List.takeWhile_eq_self_iff.mpr
        (fun y hy => by simp [notSpace, h y (by simp [hy])])
    have h2 : a'.dropWhile notSpace = [] :=
      List.dropWhile_eq_nil_iff.mpr
        (fun y hy => by simp [notSpace, h y (by simp [hy])])
    rw [h1, h2, words_nil]

/-- Every word produced by `words` is non-empty and whitespace-free. -/
theorem words_mem {s : List Char} :
    ∀ w ∈ words s, w ≠ [] ∧ ∀ c ∈ w, isSpaceChar c = false := by
  suffices h : ∀ (n : Nat) (s : List Char), s.length ≤ n →
      ∀ w ∈ words s, w ≠ [] ∧ ∀ c ∈ w, isSpaceChar c = false by
    exact h s.length s le_rfl
  intro n
  induction n with
  | zero =>
    intro s hs
    have : s = [] := by cases s <;> simp_all
    subst this; simp
  | succ n ih =>
    intro s hs w hw
    match s with
    | [] => simp at hw
    | c :: cs =>
      by_cases hc : isSpaceChar c = true
      · rw [words_cons_space _ hc] at hw
        exact ih cs (by simp at hs; omega) w hw
      · have hc' : isSpaceChar c = false := by simpa using hc
        rw [words_cons_notSpace _ hc'] at hw
        rcases List.mem_cons.mp hw with hw | hw
        · subst hw
          refine ⟨by simp, ?_⟩
          intro x hx
          rcases List.mem_cons.mp hx with hx | hx
          · subst hx; exact hc'
          · have := List.mem_takeWhile_imp hx
            simpa [notSpace] using this
        · have hlen : (cs.dropWhile notSpace).length ≤ n := by
            have h1 := List.Sublist.length_le (List.dropWhile_sublist (l := cs) notSpace)
            simp at hs; omega
          exact ih _ hlen w hw

/-- Model of Python `sep.join(pieces)`. -/
def joinSep (sep : List Char) : List (List Char) → List Char
  | [] => []
  | [x] => x
  | x :: y :: rest => x ++ sep ++ joinSep sep (y :: rest)

/-- Model of Python `s.split(sep)` for a one-character separator
(keeps empty pieces, as Python does). -/
def splitChar (sep : Char) : List Char → List (List Char)
  | [] => [[]]
  | c :: cs =>
    if c == sep then [] :: splitChar sep cs
    else
      match splitChar sep cs with
      | [] => [[c]]
      | p :: ps => (c :: p) :: ps

/-- Substring test: `hasSubstr pat s` is true when `pat` occurs
contiguously inside `s` (model of Python's `in` / SQL `LIKE %pat%`). -/
def hasSubstr (pat : List Char) : List Char → Bool
  | [] => pat.isEmpty
  | c :: rest => pat.isPrefixOf (c :: rest) || hasSubstr pat rest

/-- Model of `normalize` from `api/views.py`:
`" ".join((q or "").strip().lower().split())`. -/
def normalize (q : List Char) : List Char :=
  joinSep [' '] (words (pyLower (pyStrip q)))

/-- Model of `_brands_has_common` from `api/views.py` (identical to the
copy in `bot_app/formatters.py`): split the brand string on commas, strip
and lower-case each part, and test membership of the sentinel token. -/
def brands_has_common (brands : List Char) : Bool :=
  let b := pyStrip brands
  if b = [] then false
  else
    let parts := (splitChar ',' b).filterMap
      (fun p => let t := pyStrip p; if t = [] then none else some (pyLower t))
    parts.contains "общие".data

example : normalize "  SamSung   A13  ".data = "samsung a13".data := by decide
example : brands_has_common "HOCO, ОБЩИЕ ".data = true := by decide
example : brands_has_common "HOCO".data = false := by decide
example : hasSubstr "a13".data "samsung a13 5g".data = true := by decide


theorem lookup_some_mem {α β : Type} [BEq α] [LawfulBEq α] :
    ∀ {l : List (α × β)} {a : α} {b : β}, l.lookup a = some b → (a, b) ∈ l := by
  intro l
  induction l with
  | nil => intro a b h; simp [List.lookup] at h
  | cons e l' ih =>
    intro a b h
    match e with
    | (k, v) =>
      rw [List.lookup_cons] at h
      by_cases hk : a == k
      · have : a = k := by simpa using hk
        subst this
        simp [hk] at h
        simp [h]
      · have hk' : (a == k) = false := by simpa using hk
        simp [hk'] at h
        exact List.mem_cons_of_mem _ (ih h)

theorem lowerPairs_vals_no_lookup :
    ∀ p ∈ lowerPairs, lowerPairs.lookup p.2 = none := by decide

theorem lowerPairs_no_space :
    ∀ p ∈ lowerPairs, isSpaceChar p.1 = false ∧ isSpaceChar p.2 = false := by
  decide

/-- Lower-casing a character is idempotent. -/
theorem lowerChar_idem (c : Char) : lowerChar (lowerChar c) = lowerChar c := by
  unfold lowerChar
  cases h : lowerPairs.lookup c with
  | none => simp [h]
  | some v =>
    have hv : lowerPairs.lookup v = none :=
      lowerPairs_vals_no_lookup (c, v) (lookup_some_mem h)
    simp [h, hv]

/-- Lower-casing preserves the whitespace classification. -/
theorem isSpaceChar_lowerChar (c : Char) :
    isSpaceChar (lowerChar c) = isSpaceChar c := by
  unfold lowerChar
  cases h : lowerPairs.lookup c with
  | none => simp
  | some v =>
    have hm := lookup_some_mem h
    have hv := lowerPairs_no_space _ hm
    simp at hv
    simp [hv.1, hv.2]

theorem notSpace_lowerChar (c : Char) : notSpace (lowerChar c) = notSpace c := by
  simp [notSpace, isSpaceChar_lowerChar]

/-- Lower-casing a string is idempotent. -/
theorem pyLower_idem (s : List Char) : pyLower (pyLower s) = pyLower s := by
  simp only [pyLower, List.map_map]
  exact List.map_congr_left (fun c _ => lowerChar_idem c)

theorem pyLower_append (a b : List Char) :
    pyLower (a ++ b) = pyLower a ++ pyLower b := by
  simp [pyLower]

theorem lowerChar_space : lowerChar ' ' = ' ' := by decide

/-- Lower-casing commutes with joining on a single space. -/
theorem pyLower_joinSep_space :
    ∀ l : List (List Char),
      pyLower (joinSep [' '] l) = joinSep [' '] (l.map pyLower) := by
  intro l
  induction l with
  | nil => rfl
  | cons x l' ih =>
    match l' with
    | [] => simp [joinSep]
    | y :: r =>
      simp only [joinSep, List.map_cons]
      rw [pyLower_append, pyLower_append]
      rw [show pyLower [' '] = [' '] by simp [pyLower, lowerChar_space]]
      rw [ih]
      rfl

/-- Lower-casing commutes with word splitting. -/
theorem words_pyLower (s : List Char) :
    words (pyLower s) = (words s).map pyLower := by
  suffices h : ∀ (n : Nat) (s : List Char), s.length ≤ n →
      words (pyLower s) = (words s).map pyLower by
    exact h s.length s le_rfl
  intro n
  induction n with
  | zero =>
    intro s hs
    have : s = [] := by cases s <;> simp_all
    subst this
    simp [pyLower]
  | succ n ih =>
    intro s hs
    match s with
    | [] => simp [pyLower]
    | c :: cs =>
      have hmap : pyLower (c :: cs) = lowerChar c :: pyLower cs := by
        simp [pyLower]
      by_cases hc : isSpaceChar c = true
      · have hlc : isSpaceChar (lowerChar c) = true := by
          rw [isSpaceChar_lowerChar]; exact hc
        rw [hmap, words_cons_space _ hlc, words_cons_space _ hc]
        exact ih cs (by simp at hs; omega)
      · have hc' : isSpaceChar c = false := by simpa using hc
        have hlc : isSpaceChar (lowerChar c) = false := by
          rw [isSpaceChar_lowerChar]; exact hc'
        rw [hmap, words_cons_notSpace _ hlc, words_cons_notSpace _ hc']
        have hfun : (notSpace ∘ lowerChar) = notSpace :=
          funext (fun c => notSpace_lowerChar c)
        have htake : (pyLower cs).takeWhile notSpace
            = pyLower (cs.takeWhile notSpace) := by
          simp only [pyLower, List.takeWhile_map, hfun]
        have hdrop : (pyLower cs).dropWhile notSpace
            = pyLower (cs.dropWhile notSpace) := by
          simp only [pyLower, List.dropWhile_map, hfun]
        rw [htake, hdrop]
        have hlen : (cs.dropWhile notSpace).length ≤ n := by
          have h1 := List.Sublist.length_le (List.dropWhile_sublist (l := cs) notSpace)
          simp at hs; omega
        rw [ih _ hlen]
        simp [pyLower]

theorem joinSep_cons_cons (sep x y : List Char) (r : List (List Char)) :
    joinSep sep (x :: y :: r) = x ++ sep ++ joinSep sep (y :: r) := rfl

theorem joinSep_cons_head (sep : List Char) (c : Char) (p : List Char)
    (ps : List (List Char)) :
    joinSep sep ((c :: p) :: ps) = c :: joinSep sep (p :: ps) := by
  cases ps <;> simp [joinSep]

/-- Joining word-shaped pieces on a space and re-splitting recovers the
pieces. -/
theorem words_joinSep_words :
    ∀ (ws : List (List Char)),
      (∀ w ∈ ws, w ≠ [] ∧ ∀ c ∈ w, isSpaceChar c = false) →
      words (joinSep [' '] ws) = ws := by
  intro ws
  induction ws with
  | nil => intro _; rfl
  | cons w ws' ih =>
    intro h
    have hw := h w (by simp)
    match ws' with
    | [] =>
      simp only [joinSep]
      exact words_no_space hw.1 hw.2
    | y :: r =>
      rw [joinSep_cons_cons]
      rw [List.append_assoc]
      have hsp : isSpaceChar ' ' = true := by decide
      rw [show ([' '] ++ joinSep [' '] (y :: r)) = ' ' :: joinSep [' '] (y :: r) by simp]
      rw [words_append_space hsp]
      rw [words_no_space hw.1 hw.2]
      rw [ih (fun v hv => h v (List.mem_cons_of_mem _ hv))]
      simp

/-- Splitting a join on any single whitespace separator flattens to the
words of the pieces. -/
theorem words_joinSep_flatten {sep : Char} (hsep : isSpaceChar sep = true) :
    ∀ (l : List (List Char)),
      words (joinSep [sep] l) = (l.map words).flatten := by
  intro l
  induction l with
  | nil => rfl
  | cons x l' ih =>
    match l' with
    | [] => simp [joinSep]
    | y :: r =>
      rw [joinSep_cons_cons, List.append_assoc]
      rw [show ([sep] ++ joinSep [sep] (y :: r)) = sep :: joinSep [sep] (y :: r) by simp]
      rw [words_append_space hsep, ih]
      simp

theorem pyStrip_sublist (s : List Char) : (pyStrip s).Sublist s := by
  unfold pyStrip
  have h1 : (List.dropWhile isSpaceChar s).Sublist s :=
    List.dropWhile_sublist _
  have h2 := List.dropWhile_sublist
    (l := (List.dropWhile isSpaceChar s).reverse) isSpaceChar
  have h3 := List.Sublist.reverse h2
  simp at h3
  exact h3.trans h1

theorem mem_pyStrip {s : List Char} {c : Char} (h : c ∈ pyStrip s) : c ∈ s :=
  (pyStrip_sublist s).subset h

theorem pyStrip_length_le (s : List Char) :
    (pyStrip s).length ≤ s.length :=
  List.Sublist.length_le (pyStrip_sublist s)

/-- Stripping edge whitespace does not change the word list. -/
theorem words_pyStrip (s : List Char) : words (pyStrip s) = words s := by
  have stepA : words (List.dropWhile isSpaceChar s) = words s := by
    conv_rhs => rw [← List.takeWhile_append_dropWhile (p := isSpaceChar) (l := s)]
    rw [words_space_append _ (fun x hx => List.mem_takeWhile_imp hx)]
  set t := List.dropWhile isSpaceChar s with ht
  have stepB : words ((t.reverse.dropWhile isSpaceChar).reverse) = words t := by
    have hdec : t = (t.reverse.dropWhile isSpaceChar).reverse
        ++ (t.reverse.takeWhile isSpaceChar).reverse := by
      conv_lhs => rw [← List.reverse_reverse t]
      conv_lhs =>
        rw [← List.takeWhile_append_dropWhile (p := isSpaceChar) (l := t.reverse)]
      rw [List.reverse_append]
    conv_rhs => rw [hdec]
    rw [words_append_space_right _
      (fun x hx => List.mem_takeWhile_imp (List.mem_reverse.mp hx))]
  unfold pyStrip
  rw [stepB, stepA]

/-- A string strips to empty exactly when it is all whitespace. -/
theorem pyStrip_eq_nil_iff {s : List Char} :
    pyStrip s = [] ↔ ∀ c ∈ s, isSpaceChar c = true := by
  unfold pyStrip
  rw [List.reverse_eq_nil_iff, List.dropWhile_eq_nil_iff]
  constructor
  · intro h x hx
    have hsplit := List.takeWhile_append_dropWhile (p := isSpaceChar) (l := s)
    rw [← hsplit] at hx
    rcases List.mem_append.mp hx with hx | hx
    · exact List.mem_takeWhile_imp hx
    · exact h x (List.mem_reverse.mpr hx)
  · intro h x hx
    exact h x ((List.dropWhile_sublist _).subset (List.mem_reverse.mp hx))

/-- Closed form of `normalize`: lower-case the words of the input and join
them with single spaces. -/
theorem normalize_eq (s : List Char) :
    normalize s = joinSep [' '] ((words s).map pyLower) := by
  unfold normalize
  rw [words_pyLower, words_pyStrip]

theorem words_map_pyLower_shape (s : List Char) :
    ∀ w ∈ (words s).map pyLower, w ≠ [] ∧ ∀ c ∈ w, isSpaceChar c = false := by
  intro w hw
  obtain ⟨w₀, hw₀, rfl⟩ := List.mem_map.mp hw
  have h := words_mem w₀ hw₀
  constructor
  · simp [pyLower]
    exact h.1
  · intro c hc
    obtain ⟨c₀, hc₀, rfl⟩ := List.mem_map.mp hc
    rw [isSpaceChar_lowerChar]
    exact h.2 c₀ hc₀

/-- Lower-casing is invariant on normalized strings. -/
theorem pyLower_normalize (s : List Char) :
    pyLower (normalize s) = normalize s := by
  rw [normalize_eq, pyLower_joinSep_space]
  congr 1
  rw [List.map_map]
  exact List.map_congr_left (fun w _ => pyLower_idem w)

/-- The normalizer is idempotent (claim C9's core property). -/
theorem normalize_idem (s : List Char) :
    normalize (normalize s) = normalize s := by
  conv_lhs => rw [normalize_eq (normalize s)]
  rw [normalize_eq s]
  rw [words_joinSep_words _ (words_map_pyLower_shape s)]
  congr 1
  rw [List.map_map]
  exact List.map_congr_left (fun w _ => pyLower_idem w)

/-- A string normalizes to empty exactly when it is all whitespace. -/
theorem normalize_eq_nil_iff {s : List Char} :
    normalize s = [] ↔ ∀ c ∈ s, isSpaceChar c = true := by
  rw [normalize_eq]
  constructor
  · intro h
    rw [← words_eq_nil_iff]
    cases hw : words s with
    | nil => rfl
    | cons w ws =>
      exfalso
      rw [hw] at h
      have hne : pyLower w ≠ [] := by
        have := words_mem w (by rw [hw]; simp)
        simp [pyLower]
        exact this.1
      cases ws with
      | nil => simp [joinSep] at h; exact hne h
      | cons y r =>
        simp only [List.map_cons] at h
        rw [joinSep_cons_cons] at h
        simp at h
  · intro h
    rw [words_eq_nil_iff.mpr h]
    rfl

theorem normalize_pyStrip (s : List Char) :
    normalize (pyStrip s) = normalize s := by
  rw [normalize_eq, normalize_eq, words_pyStrip]

/-- Characterization of the substring test. -/
theorem hasSubstr_iff {pat s : List Char} :
    hasSubstr pat s = true ↔ pat <:+: s := by
  induction s with
  | nil =>
    simp only [hasSubstr, List.isEmpty_iff]
    constructor
    · intro h; subst h; exact List.nil_infix
    · intro h; exact List.eq_nil_of_infix_nil h
  | cons c rest ih =>
    simp only [hasSubstr, Bool.or_eq_true]
    rw [List.isPrefixOf_iff_prefix, ih]
    constructor
    · rintro (h | h)
      · exact h.isInfix
      · exact h.trans (List.infix_cons (List.infix_refl rest))
    · intro h
      rcases List.infix_cons_iff.mp h with h | h
      · exact Or.inl h
      · exact Or.inr h

theorem splitChar_ne_nil (sep : Char) (s : List Char) : splitChar sep s ≠ [] := by
  induction s with
  | nil => simp [splitChar]
  | cons c cs ih =>
    unfold splitChar
    by_cases hc : c == sep
    · simp [hc]
    · have hc' : (c == sep) = false := by simpa using hc
      simp only [hc', Bool.false_eq_true, if_false]
      cases h : splitChar sep cs with
      | nil => exact absurd h ih
      | cons p ps => simp

/-- Joining the pieces of a single-character split with the separator
recovers the original string. -/
theorem joinSep_splitChar (sep : Char) (s : List Char) :
    joinSep [sep] (splitChar sep s) = s := by
  induction s with
  | nil => rfl
  | cons c cs ih =>
    unfold splitChar
    by_cases hc : c == sep
    · have hceq : c = sep := by simpa using hc
      simp only [hc, if_true]
      cases h : splitChar sep cs with
      | nil => exact absurd h (splitChar_ne_nil sep cs)
      | cons p ps =>
        rw [h] at ih
        rw [joinSep_cons_cons]
        simp only [List.nil_append]
        rw [ih, hceq]
        simp
    · have hc' : (c == sep) = false := by simpa using hc
      simp only [hc', Bool.false_eq_true, if_false]
      cases h : splitChar sep cs with
      | nil => exact absurd h (splitChar_ne_nil sep cs)
      | cons p ps =>
        rw [h] at ih
        rw [joinSep_cons_head, ih]

/-- No piece of a single-character split contains the separator. -/
theorem splitChar_mem_no_sep (sep : Char) (s : List Char) :
    ∀ q ∈ splitChar sep s, sep ∉ q := by
  induction s with
  | nil => simp [splitChar]
  | cons c cs ih =>
    intro q hq
    unfold splitChar at hq
    by_cases hc : c == sep
    · simp only [hc, if_true] at hq
      rcases List.mem_cons.mp hq with hq | hq
      · subst hq; simp
      · exact ih q hq
    · have hc' : (c == sep) = false := by simpa using hc
      simp only [hc', Bool.false_eq_true, if_false] at hq
      cases h : splitChar sep cs with
      | nil => exact absurd h (splitChar_ne_nil sep cs)
      | cons p ps =>
        rw [h] at hq
        rcases List.mem_cons.mp hq with hq | hq
        · subst hq
          intro hmem
          rcases List.mem_cons.mp hmem with hmem | hmem
          · rw [hmem] at hc; simp at hc
          · exact ih p (by rw [h]; simp) hmem
        · exact ih q (by rw [h]; simp [hq])

/-- Stable insertion: place `a` before the first element `b` with
`le a b`. -/
def insertLe {α : Type} (le : α → α → Bool) (a : α) : List α → List α
  | [] => [a]
  | b :: l => if le a b then a :: b :: l else b :: insertLe le a l

/-- Stable sort with respect to a total boolean preorder.  Python's
`sorted` is a stable sort, and a stable sort's output is uniquely
determined by the comparator, so this insertion sort is an exact model
of `sorted(xs, key=...)` with `le` the comparison of keys. -/
def pySorted {α : Type} (le : α → α → Bool) (l : List α) : List α :=
  List.foldr (insertLe le) [] l

theorem insertLe_perm {α : Type} (le : α → α → Bool) (a : α) :
    ∀ l : List α, (insertLe le a l).Perm (a :: l) := by
  intro l
  induction l with
  | nil => simp [insertLe]
  | cons b l' ih =>
    unfold insertLe
    by_cases h : le a b
    · simp [h]
    · have h' : le a b = false := by simpa using h
      simp only [h', Bool.false_eq_true, if_false]
      exact (ih.cons b).trans (List.Perm.swap a b l')

theorem pySorted_perm {α : Type} (le : α → α → Bool) (l : List α) :
    (pySorted le l).Perm l := by
  induction l with
  | nil => simp [pySorted]
  | cons a l' ih =>
    have h1 : pySorted le (a :: l') = insertLe le a (pySorted le l') := rfl
    rw [h1]
    exact (insertLe_perm le a (pySorted le l')).trans (ih.cons a)

theorem mem_insertLe {α : Type} {le : α → α → Bool} {a x : α} {l : List α} :
    x ∈ insertLe le a l ↔ x = a ∨ x ∈ l := by
  constructor
  · intro h
    have := (insertLe_perm le a l).mem_iff.mp h
    simpa using this
  · intro h
    apply (insertLe_perm le a l).mem_iff.mpr
    simpa using h

theorem insertLe_pairwise {α : Type} {le : α → α → Bool}
    (htrans : ∀ a b c, le a b = true → le b c = true → le a c = true)
    (htot : ∀ a b, le a b = true ∨ le b a = true)
    (a : α) : ∀ {l : List α}, List.Pairwise (fun x y => le x y = true) l →
      List.Pairwise (fun x y => le x y = true) (insertLe le a l) := by
  intro l
  induction l with
  | nil => intro _; simp [insertLe]
  | cons b l' ih =>
    intro hp
    have hpb := List.pairwise_cons.mp hp
    unfold insertLe
    by_cases h : le a b
    · simp only [h, if_true]
      apply List.pairwise_cons.mpr
      refine ⟨?_, hp⟩
      intro x hx
      rcases List.mem_cons.mp hx with hx | hx
      · subst hx; exact h
      · exact htrans a b x h (hpb.1 x hx)
    · have h' : le a b = false := by simpa using h
      have hba : le b a = true := by
        rcases htot a b with hab | hba
        · rw [hab] at h'; exact absurd h' (by simp)
        · exact hba
      simp only [h', Bool.false_eq_true, if_false]
      apply List.pairwise_cons.mpr
      refine ⟨?_, ih hpb.2⟩
      intro x hx
      rcases mem_insertLe.mp hx with hx | hx
      · subst hx; exact hba
      · exact hpb.1 x hx

theorem pySorted_pairwise {α : Type} {le : α → α → Bool}
    (htrans : ∀ a b c, le a b = true → le b c = true → le a c = true)
    (htot : ∀ a b, le a b = true ∨ le b a = true)
    (l : List α) :
    List.Pairwise (fun x y => le x y = true) (pySorted le l) := by
  induction l with
  | nil => simp [pySorted]
  | cons a l' ih => exact insertLe_pairwise htrans htot a ih

theorem pySorted_length {α : Type} (le : α → α → Bool) (l : List α) :
    (pySorted le l).length = l.length :=
  (pySorted_perm le l).length_eq

theorem mem_pySorted {α : Type} {le : α → α → Bool} {l : List α} {x : α} :
    x ∈ pySorted le l ↔ x ∈ l :=
  (pySorted_perm le l).mem_iff

/-- Model of a `catalog.models.GlassGroup` row. -/
structure GlassGroup where
  id : Nat
  name : List Char
  brands : List Char
  description : List Char
  external_id : List Char
  is_active : Bool
deriving DecidableEq

/-- Model of a `catalog.models.Glass` row (the group foreign key is kept
as the raw id). -/
structure Glass where
  name : List Char
  group_id : Nat
  is_active : Bool
deriving DecidableEq

/-- Model of a `catalog.models.GlassAlias` row, with its `select_related`
glass embedded.  The source's `alias` field is called `alias_value` here
because `alias` is a Lean command keyword. -/
structure GlassAlias where
  alias_value : List Char
  normalized_alias : List Char
  glass : Glass
deriving DecidableEq

/-- Snapshot of the catalog database visible to one request. -/
structure DB where
  groups : List GlassGroup
  glasses : List Glass
  aliases : List GlassAlias
deriving DecidableEq

/-- Foreign-key join from a `group_id` to its group row. -/
def findGroup (db : DB) (gid : Nat) : Option GlassGroup :=
  db.groups.find? (fun g => g.id == gid)

/-- Truth of `group__is_active=True` for a given foreign key; a dangling
key fails the inner join. -/
def groupActive (db : DB) (gid : Nat) : Bool :=
  match findGroup db gid with
  | some g => g.is_active
  | none => false

/-- Model of `alias_base`: aliases of active glasses in active groups. -/
def aliasBase (db : DB) : List GlassAlias :=
  db.aliases.filter (fun a => a.glass.is_active && groupActive db a.glass.group_id)

/-- Model of `glass_base`: active glasses in active groups. -/
def glassBase (db : DB) : List Glass :=
  db.glasses.filter (fun g => g.is_active && groupActive db g.group_id)

/-- Django `icontains`: case-insensitive containment. -/
def icontains (pat s : List Char) : Bool := hasSubstr (pyLower pat) (pyLower s)

/-- Model of the `alias_exact` queryset. -/
def alias_exact (db : DB) (qn : List Char) : List GlassAlias :=
  (aliasBase db).filter (fun a => a.normalized_alias == qn)

/-- Model of the `alias_starts` queryset. -/
def alias_starts (db : DB) (qn : List Char) : List GlassAlias :=
  (aliasBase db).filter
    (fun a => qn.isPrefixOf a.normalized_alias && !(a.normalized_alias == qn))

/-- Model of the `alias_contains` queryset. -/
def alias_contains (db : DB) (qn : List Char) : List GlassAlias :=
  (aliasBase db).filter
    (fun a => icontains qn a.normalized_alias && !(a.normalized_alias == qn)
      && !(qn.isPrefixOf a.normalized_alias))

/-- Model of the `name_exact` queryset (`name__iexact=q_stripped`). -/
def name_exact (db : DB) (qs : List Char) : List Glass :=
  (glassBase db).filter (fun g => pyLower g.name == pyLower qs)

/-- Model of the `name_contains` queryset. -/
def name_contains (db : DB) (qs : List Char) : List Glass :=
  (glassBase db).filter
    (fun g => icontains qs g.name && !(pyLower g.name == pyLower qs))

/-- Candidate list built by `SearchView.get`: tuples
`(score, group_id, matched_glass_name)` in fixed tier order. -/
def candidatesOf (db : DB) (q : List Char) : List (Nat × Nat × List Char) :=
  let qs := pyStrip q
  let qn := normalize qs
  ((alias_exact db qn).map (fun a => (0, a.glass.group_id, a.glass.name)))
  ++ ((alias_starts db qn).map (fun a => (1, a.glass.group_id, a.glass.name)))
  ++ ((alias_contains db qn).map (fun a => (2, a.glass.group_id, a.glass.name)))
  ++ ((name_exact db qs).map (fun g => (3, g.group_id, g.name)))
  ++ ((name_contains db qs).map (fun g => (4, g.group_id, g.name)))

/-- One step of the `best_by_group` dict loop: keep a candidate only if
its group is unseen or its score is strictly smaller.  The dict is
modelled as an association list `(group_id, score, name)` in insertion
order, matching Python dict semantics. -/
def bestStep (m : List (Nat × Nat × List Char)) (c : Nat × Nat × List Char) :
    List (Nat × Nat × List Char) :=
  match m.lookup c.2.1 with
  | none => m ++ [(c.2.1, c.1, c.2.2)]
  | some sv =>
    if c.1 < sv.1 then
      m.map (fun e => if e.1 == c.2.1 then (c.2.1, c.1, c.2.2) else e)
    else m

/-- Model of the `best_by_group` dict after the whole candidate loop. -/
def best_by_group (cands : List (Nat × Nat × List Char)) :
    List (Nat × Nat × List Char) :=
  cands.foldl bestStep []

/-- Model of the `groups_by_id` dict lookup: the queryset filters on
`is_active=True`, and a dict comprehension keeps the last row per id. -/
def groupsById (db : DB) (gid : Nat) : Option GlassGroup :=
  (db.groups.filter (fun g => g.is_active && g.id == gid)).getLast?

/-- Model of `_sort_gid`: composite sort key
`(0 if "ОБЩИЕ" in brands else 1, score, gid)`.  The score defaults to 0
for a group id outside the dict, which cannot happen on the ids actually
sorted. -/
def sortGidKey (db : DB) (best : List (Nat × Nat × List Char)) (gid : Nat) :
    Nat × Nat × Nat :=
  let brands := match groupsById db gid with
    | some g => g.brands
    | none => []
  let common := brands_has_common brands
  let score := match best.lookup gid with
    | some (s, _) => s
    | none => 0
  (if common then 0 else 1, score, gid)

/-- Ascending lexicographic comparison of the composite sort keys,
mirroring Python tuple comparison. -/
def tripleLe (a b : Nat × Nat × Nat) : Bool :=
  decide (a.1 < b.1) ||
    (a.1 == b.1 && (decide (a.2.1 < b.2.1) ||
      (a.2.1 == b.2.1 && decide (a.2.2 ≤ b.2.2))))

/-- The group ids kept for rendering: dict keys that survived the
active-group refetch. -/
def surviving_gids (db : DB) (best : List (Nat × Nat × List Char)) : List Nat :=
  (best.map (fun e => e.1)).filter (fun gid => (groupsById db gid).isSome)

/-- Model of `group_ids_sorted`. -/
def rankedGroupIds (db : DB) (best : List (Nat × Nat × List Char)) : List Nat :=
  pySorted (fun a b => tripleLe (sortGidKey db best a) (sortGidKey db best b))
    (surviving_gids db best)

/-- Model of `_group_payload`. -/
structure GroupPayload where
  id : Nat
  name : List Char
  brands : List Char
  description : List Char
  external_id : List Char
deriving DecidableEq

def group_payload (g : GlassGroup) : GroupPayload :=
  { id := g.id, name := g.name, brands := g.brands,
    description := g.description, external_id := g.external_id }

/-- One entry of the API `results` list. -/
structure ResultItem where
  matched_glass : List Char
  group : GroupPayload
  compatible_glasses : List (List Char)
deriving DecidableEq

/-- Lexicographic code-point comparison of strings (Python `<=` on str,
SQL ordering used by `order_by("name")`). -/
def lexLe : List Char → List Char → Bool
  | [], _ => true
  | _ :: _, [] => false
  | a :: as, b :: bs => if a < b then true else if a == b then lexLe as bs else false

/-- Model of `group.glasses.filter(is_active=True).order_by("name")
.values_list("name", flat=True)`. -/
def compatibleOf (db : DB) (g : GlassGroup) : List (List Char) :=
  pySorted lexLe ((db.glasses.filter
    (fun gl => gl.group_id == g.id && gl.is_active)).map (fun gl => gl.name))

/-- Result row assembled for one ranked group id (the loop body with its
`continue` on a missing group). -/
def resultFor (db : DB) (best : List (Nat × Nat × List Char)) (gid : Nat) :
    Option ResultItem :=
  match groupsById db gid with
  | none => none
  | some group =>
    some { matched_glass := match best.lookup gid with
             | some (_, nm) => nm
             | none => []
           group := group_payload group
           compatible_glasses := compatibleOf db group }

/-- The three response shapes of `SearchView.get`. -/
inductive ApiResponse where
  | badRequest : ApiResponse
  | notFound : List Char → ApiResponse
  | ok : List Char → List ResultItem → ApiResponse
deriving DecidableEq

/-- Model of `SearchView.get`. -/
def searchGet (db : DB) (q : List Char) : ApiResponse :=
  let qs := pyStrip q
  let qn := normalize qs
  if qn = [] then ApiResponse.badRequest
  else
    let cands := candidatesOf db q
    if cands = [] then ApiResponse.notFound qs
    else
      let best := best_by_group cands
      let results := (rankedGroupIds db best).filterMap (resultFor db best)
      if results = [] then ApiResponse.notFound qs
      else ApiResponse.ok qs results

/-- Input dictionary of `format_search_result`, with the legacy
single-result top-level keys modelled as defaulted fields. -/
structure RenderData where
  found : Bool
  query : List Char
  results : List ResultItem
  matched_glass : List Char := []
  group : GroupPayload := { id := 0, name := [], brands := [],
                            description := [], external_id := [] }
  compatible_glasses : List (List Char) := []

/-- The fixed "not found" template of the formatter. -/
def notFoundText (q : List Char) : List Char :=
  let q_part :=
    if q ≠ [] then "🔎 Запрос: <b>".data ++ q ++ "</b>\n\n".data else []
  "❌ <b>Совпадений не найдено</b>\n\n".data ++ q_part
    ++ "Что можно сделать:\n• попробуйте другое написание (например: <b>Redmi 9A</b>)\n".data

/-- Model of the legacy-format fallback: an empty `results` list is
replaced by one item built from the top-level keys. -/
def effResults (data : RenderData) : List ResultItem :=
  if data.results = [] then
    [{ matched_glass := data.matched_glass, group := data.group,
       compatible_glasses := data.compatible_glasses }]
  else data.results

/-- Model of the formatter's `sort_key`: shared-brand groups first. -/
def itemSortFlag (item : ResultItem) : Nat :=
  if brands_has_common (pyStrip item.group.brands) then 0 else 1

/-- Model of `[g.strip() for g in glasses if isinstance(g, str) and g.strip()]`. -/
def cleanGlasses (gs : List (List Char)) : List (List Char) :=
  gs.filterMap (fun g => let t := pyStrip g; if t = [] then none else some t)

/-- First-seen-order de-duplication loop (`seen` set plus `uniq` list). -/
def dedupAux : List (List Char) → List (List Char) → List (List Char)
  | _, [] => []
  | seen, g :: gs =>
    if seen.contains g then dedupAux seen gs
    else g :: dedupAux (g :: seen) gs

/-- The distinct item names of one group, in first-seen order. -/
def uniqNames (gs : List (List Char)) : List (List Char) :=
  dedupAux [] (cleanGlasses gs)

/-- Model of `shown_items`: everything for premium, otherwise the first
`max(0, limit)` names. -/
def shownItems (uniq : List (List Char)) (is_premium : Bool) (limit : Int) :
    List (List Char) :=
  if is_premium then uniq else uniq.take (max 0 limit).toNat

/-- Model of `rest_items` (natural subtraction models `max(0, ...)`). -/
def restItems (uniq : List (List Char)) (is_premium : Bool) (limit : Int) : Nat :=
  if is_premium then 0
  else uniq.length - (shownItems uniq is_premium limit).length

/-- An item line `• name`. -/
def itemMark (g : List Char) : List Char := "• ".data ++ g

/-- The locked-count line of the free tier. -/
def lockedLine (n : Nat) : List Char :=
  "🔒 Ещё <b>".data ++ Nat.toDigits 10 n ++ "</b> стекол скрыто.".data

/-- The placeholder line for a group with no shown items. -/
def emptyLine : List Char := "• (пусто)".data

/-- Model of the `lines` list of one group block. -/
def linesFor (uniq : List (List Char)) (is_premium : Bool) (limit : Int) :
    List (List Char) :=
  let shown := shownItems uniq is_premium limit
  let rest := restItems uniq is_premium limit
  let ls := if shown ≠ [] then shown.map itemMark else [emptyLine]
  if is_premium = false ∧ rest > 0 then ls ++ [lockedLine rest] else ls

/-- Description truncation to 300 characters with an ellipsis. -/
def descTrunc (d : List Char) : List Char :=
  if d.length > 300 then pyRStrip (d.take 297) ++ "…".data else d

/-- Model of one rendered group block (the loop body joined with
newlines). -/
def groupBlock (idx : Nat) (item : ResultItem) (is_premium : Bool)
    (limit : Int) : List Char :=
  let matched := pyStrip item.matched_glass
  let brands := pyStrip item.group.brands
  let description := pyStrip item.group.description
  let uniq := uniqNames item.compatible_glasses
  let ls := linesFor uniq is_premium limit
  let block :=
    ["\n<b>Вариант ".data ++ Nat.toDigits 10 idx ++ "</b>".data]
    ++ (if matched ≠ [] then
          ["🔖 Найдено: <b>".data ++ matched ++ "</b>".data] else [])
    ++ (if brands ≠ [] then
          ["🏷 Бренд: <b>".data ++ brands ++ "</b>".data] else [])
    ++ (if description ≠ [] then
          ["📝 Описание: ".data ++ descTrunc description] else [])
    ++ ["📌 <b>Подходящие стёкла:</b>".data]
    ++ ls
  joinSep ['\n'] block

/-- The fixed header block. -/
def headerBlock : List Char := "✅ <b>Взаимозаменяемость стекла</b>".data

/-- The free-tier call-to-action block. -/
def ctaBlock : List Char :=
  "Чтобы видеть полный список подключите — /premium".data

/-- The trailing summary block for more than five groups. -/
def summaryBlock (shown total rem : Nat) : List Char :=
  "\nℹ️ Показано <b>".data ++ Nat.toDigits 10 shown ++ "</b> из <b>".data
    ++ Nat.toDigits 10 total ++ "</b>. Ещё вариантов: <b>".data
    ++ Nat.toDigits 10 rem ++ "</b>. Уточните запрос, если нужно.".data

/-- Model of the `blocks` list of `format_search_result` in the found
branch. -/
def formatBlocks (data : RenderData) (is_premium : Bool) (limit : Int) :
    List (List Char) :=
  let results := pySorted
    (fun a b => decide (itemSortFlag a ≤ itemSortFlag b)) (effResults data)
  let shown_groups := results.take 5
  let remainder_groups := results.length - shown_groups.length
  [headerBlock]
  ++ (if is_premium then [] else [ctaBlock])
  ++ (shown_groups.enum.map (fun p => groupBlock (p.1 + 1) p.2 is_premium limit))
  ++ (if remainder_groups > 0 then
        [summaryBlock shown_groups.length results.length remainder_groups]
      else [])

/-- Model of `format_search_result` from `bot_app/formatters.py`. -/
def format_search_result (data : RenderData) (is_premium : Bool)
    (limit : Int) : List Char :=
  if data.found = false then notFoundText (pyStrip data.query)
  else pyStrip (joinSep ['\n'] (formatBlocks data is_premium limit))

/-- The block marker of the chunker: `"\n<b>Вариант "`. -/
def marker : List Char := "\n<b>Вариант ".data

/-- Fuel-driven splitter on the block marker (leftmost, non-overlapping
occurrences, Python `text.split(marker)`).  The fuel dominates the input
length, so the fallback `[s]` branch is never reached in `splitMarker`. -/
def splitMarkerF : Nat → List Char → List (List Char)
  | _, [] => [[]]
  | 0, s => [s]
  | fuel + 1, c :: cs =>
    if marker.isPrefixOf (c :: cs) then
      [] :: splitMarkerF fuel (List.drop 11 cs)
    else
      match splitMarkerF fuel cs with
      | [] => [[c]]
      | p :: ps => (c :: p) :: ps

/-- Model of `text.split(marker)`. -/
def splitMarker (s : List Char) : List (List Char) := splitMarkerF s.length s

/-- First packing pass of `split_html_message`: greedily join
marker-delimited pieces with blank lines up to the limit. -/
def pack1 (maxLen : Nat) : List (List Char) → List Char → List (List Char)
  | [], current => if current ≠ [] then [current] else []
  | p :: ps, current =>
    let piece := pyStrip (marker ++ p)
    if current = [] then pack1 maxLen ps piece
    else if current.length + 2 + piece.length ≤ maxLen then
      pack1 maxLen ps (current ++ '\n' :: '\n' :: piece)
    else current :: pack1 maxLen ps piece

/-- Second packing pass of `split_html_message`: split an oversized chunk
at line boundaries. -/
def pack2 (maxLen : Nat) : List (List Char) → List Char → List (List Char)
  | [], cur => if pyStrip cur ≠ [] then [pyStrip cur] else []
  | ln :: lns, cur =>
    let add := ln ++ ['\n']
    if cur.length + add.length ≤ maxLen then pack2 maxLen lns (cur ++ add)
    else if pyStrip cur ≠ [] then pyStrip cur :: pack2 maxLen lns add
    else pack2 maxLen lns add

/-- The Telegram transport limit used by the bot. -/
def TG_MAX_MESSAGE : Nat := 3900

/-- Model of `split_html_message` from `bot_app/main.py`. -/
def split_html_message (text : List Char) (maxLen : Nat) : List (List Char) :=
  if text.length ≤ maxLen then [text]
  else
    let chunks :=
      match splitMarker text with
      | [] => []
      | p₀ :: ps => pack1 maxLen ps (pyStrip p₀)
    chunks.flatMap (fun ch =>
      if ch.length ≤ maxLen then [ch]
      else pack2 maxLen (splitChar '\n' ch) [])


theorem bestStep_none {m : List (Nat × Nat × List Char)}
    {c : Nat × Nat × List Char} (hl : m.lookup c.2.1 = none) :
    bestStep m c = m ++ [(c.2.1, c.1, c.2.2)] := by
  unfold bestStep
  rw [hl]

theorem bestStep_some {m : List (Nat × Nat × List Char)}
    {c : Nat × Nat × List Char} {sv : Nat × List Char}
    (hl : m.lookup c.2.1 = some sv) :
    bestStep m c =
      if c.1 < sv.1 then
        m.map (fun e => if e.1 == c.2.1 then (c.2.1, c.1, c.2.2) else e)
      else m := by
  unfold bestStep
  rw [hl]

theorem lookup_eq_none_iff {α β : Type} [BEq α] [LawfulBEq α]
    {m : List (α × β)} {a : α} :
    m.lookup a = none ↔ ∀ e ∈ m, e.1 ≠ a := by
  induction m with
  | nil => simp [List.lookup]
  | cons e m' ih =>
    match e with
    | (k, v) =>
      rw [List.lookup_cons]
      by_cases hk : a == k
      · have hak : a = k := by simpa using hk
        subst hak
        simp [hk]
      · have hk' : (a == k) = false := by simpa using hk
        have hne : k ≠ a := by
          intro hcon; subst hcon; simp at hk'
        simp only [hk']
        rw [ih]
        constructor
        · intro h e' he'
          rcases List.mem_cons.mp he' with he' | he'
          · subst he'; exact hne
          · exact h e' he'
        · intro h e' he'
          exact h e' (List.mem_cons_of_mem _ he')

theorem lookup_some_of_mem {α β : Type} [BEq α] [LawfulBEq α]
    {m : List (α × β)} {a : α} {b : β}
    (hnd : (m.map (fun e => e.1)).Nodup) (hmem : (a, b) ∈ m) :
    m.lookup a = some b := by
  induction m with
  | nil => simp at hmem
  | cons e m' ih =>
    match e with
    | (k, v) =>
      rw [List.lookup_cons]
      simp only [List.map_cons, List.nodup_cons] at hnd
      rcases List.mem_cons.mp hmem with h | h
      · have hk : k = a := by
          have := congrArg Prod.fst h.symm
          simpa using this
        subst hk
        have hv : v = b := by
          have := congrArg Prod.snd h.symm
          simpa using this
        subst hv
        simp
      · have hka : (a == k) = false := by
          by_cases hak : a = k
          · exfalso
            apply hnd.1
            subst hak
            exact List.mem_map.mpr ⟨(a, b), h, rfl⟩
          · simpa using hak
        simp only [hka]
        exact ih hnd.2 h

theorem mem_unique_of_keys_nodup {α β : Type} [BEq α] [LawfulBEq α]
    {m : List (α × β)} {a : α} {x y : β}
    (hnd : (m.map (fun e => e.1)).Nodup)
    (hx : (a, x) ∈ m) (hy : (a, y) ∈ m) : x = y := by
  have h1 := lookup_some_of_mem hnd hx
  have h2 := lookup_some_of_mem hnd hy
  rw [h1] at h2
  exact Option.some_injective _ h2

theorem replace_keys_eq {m : List (Nat × Nat × List Char)}
    {g sc : Nat} {nmc : List Char} :
    (m.map (fun e => if e.1 == g then (g, sc, nmc) else e)).map (fun e => e.1)
      = m.map (fun e => e.1) := by
  rw [List.map_map]
  apply List.map_congr_left
  intro e _
  by_cases he : e.1 == g
  · have heg : e.1 = g := by simpa using he
    simp [Function.comp_apply, heg]
  · have he' : e.1 ≠ g := by simpa using he
    simp [Function.comp_apply, he']

theorem bestStep_keys_nodup {m : List (Nat × Nat × List Char)}
    {c : Nat × Nat × List Char}
    (h : (m.map (fun e => e.1)).Nodup) :
    ((bestStep m c).map (fun e => e.1)).Nodup := by
  cases hl : m.lookup c.2.1 with
  | none =>
    rw [bestStep_none hl]
    have hg : ∀ e ∈ m, e.1 ≠ c.2.1 := lookup_eq_none_iff.mp hl
    simp only [List.map_append, List.map_cons, List.map_nil]
    rw [List.nodup_append]
    refine ⟨h, by simp, ?_⟩
    intro a ha
    simp only [List.mem_singleton]
    obtain ⟨e, he, rfl⟩ := List.mem_map.mp ha
    exact hg e he
  | some sv =>
    rw [bestStep_some hl]
    by_cases hlt : c.1 < sv.1
    · simp only [hlt, if_true]
      rw [replace_keys_eq]
      exact h
    · simp only [hlt, if_false]
      exact h

theorem bestStep_keys_iff {m : List (Nat × Nat × List Char)}
    {c : Nat × Nat × List Char} {gid : Nat} :
    (∃ e ∈ bestStep m c, e.1 = gid) ↔
      ((∃ e ∈ m, e.1 = gid) ∨ c.2.1 = gid) := by
  cases hl : m.lookup c.2.1 with
  | none =>
    rw [bestStep_none hl]
    constructor
    · rintro ⟨e, he, rfl⟩
      rcases List.mem_append.mp he with he | he
      · exact Or.inl ⟨e, he, rfl⟩
      · simp at he
        subst he
        exact Or.inr rfl
    · rintro (⟨e, he, rfl⟩ | hg)
      · exact ⟨e, List.mem_append.mpr (Or.inl he), rfl⟩
      · exact ⟨(c.2.1, c.1, c.2.2), List.mem_append.mpr (Or.inr (by simp)), hg⟩
  | some sv =>
    have hmem : (c.2.1, sv) ∈ m := lookup_some_mem hl
    rw [bestStep_some hl]
    by_cases hlt : c.1 < sv.1
    · simp only [hlt, if_true]
      constructor
      · rintro ⟨e, he, rfl⟩
        obtain ⟨e₀, he₀, rfl⟩ := List.mem_map.mp he
        by_cases hk : e₀.1 == c.2.1
        · have hek : e₀.1 = c.2.1 := by simpa using hk
          exact Or.inr (by simp [hk])
        · have hk' : (e₀.1 == c.2.1) = false := by simpa using hk
          simp only [hk', Bool.false_eq_true, if_false]
          exact Or.inl ⟨e₀, he₀, rfl⟩
      · rintro (⟨e, he, rfl⟩ | hg)
        · by_cases hk : e.1 == c.2.1
          · have hek : e.1 = c.2.1 := by simpa using hk
            refine ⟨(c.2.1, c.1, c.2.2),
              List.mem_map.mpr ⟨e, he, by simp [hk]⟩, ?_⟩
            simpa using hek.symm
          · have hk' : (e.1 == c.2.1) = false := by simpa using hk
            exact ⟨e, List.mem_map.mpr ⟨e, he, by simp [hk']⟩, rfl⟩
        · refine ⟨(c.2.1, c.1, c.2.2),
            List.mem_map.mpr ⟨(c.2.1, sv), hmem, by simp⟩, hg⟩
    · simp only [hlt, if_false]
      constructor
      · rintro ⟨e, he, rfl⟩
        exact Or.inl ⟨e, he, rfl⟩
      · rintro (⟨e, he, rfl⟩ | hg)
        · exact ⟨e, he, rfl⟩
        · exact ⟨(c.2.1, sv), hmem, hg⟩

theorem bestStep_mem_ne {m : List (Nat × Nat × List Char)}
    {c : Nat × Nat × List Char} {gid s : Nat} {nm : List Char}
    (hne : gid ≠ c.2.1) :
    ((gid, s, nm) ∈ bestStep m c) ↔ ((gid, s, nm) ∈ m) := by
  cases hl : m.lookup c.2.1 with
  | none =>
    rw [bestStep_none hl, List.mem_append]
    constructor
    · rintro (h | h)
      · exact h
      · simp at h
        exact absurd h.1 hne
    · exact Or.inl
  | some sv =>
    rw [bestStep_some hl]
    by_cases hlt : c.1 < sv.1
    · simp only [hlt, if_true]
      constructor
      · intro h
        obtain ⟨e, he, heq⟩ := List.mem_map.mp h
        by_cases hk : e.1 == c.2.1
        · simp only [hk, if_true] at heq
          exact absurd (congrArg Prod.fst heq.symm) (by simpa using hne)
        · have hk' : (e.1 == c.2.1) = false := by simpa using hk
          simp only [hk', Bool.false_eq_true, if_false] at heq
          rw [← heq]
          exact he
      · intro h
        have hk : ((gid : Nat) == c.2.1) = false := by simpa using hne
        exact List.mem_map.mpr ⟨(gid, s, nm), h, by simp [hk]⟩
    · simp [hlt]

theorem bestStep_exists_self {m : List (Nat × Nat × List Char)}
    {c : Nat × Nat × List Char} :
    ∃ t nm', (c.2.1, t, nm') ∈ bestStep m c ∧ t ≤ c.1 := by
  cases hl : m.lookup c.2.1 with
  | none =>
    refine ⟨c.1, c.2.2, ?_, le_refl _⟩
    rw [bestStep_none hl]
    simp
  | some sv =>
    have hmem : (c.2.1, sv) ∈ m := lookup_some_mem hl
    rw [bestStep_some hl]
    by_cases hlt : c.1 < sv.1
    · refine ⟨c.1, c.2.2, ?_, le_refl _⟩
      simp only [hlt, if_true]
      refine List.mem_map.mpr ⟨(c.2.1, sv), hmem, ?_⟩
      simp
    · refine ⟨sv.1, sv.2, ?_, by omega⟩
      simp only [hlt, if_false]
      simpa using hmem

theorem bestStep_mem_self {m : List (Nat × Nat × List Char)}
    {c : Nat × Nat × List Char} {s : Nat} {nm : List Char}
    (hnd : (m.map (fun e => e.1)).Nodup)
    (h : (c.2.1, s, nm) ∈ bestStep m c) :
    s ≤ c.1 ∧ (∀ s₀ nm₀, (c.2.1, s₀, nm₀) ∈ m → s ≤ s₀)
      ∧ ((∃ nm₁, (c.2.1, s, nm₁) ∈ m) ∨ s = c.1) := by
  cases hl : m.lookup c.2.1 with
  | none =>
    have hno : ∀ e ∈ m, e.1 ≠ c.2.1 := lookup_eq_none_iff.mp hl
    rw [bestStep_none hl] at h
    rcases List.mem_append.mp h with h | h
    · exact absurd rfl (hno _ h)
    · simp at h
      refine ⟨by omega, ?_, Or.inr h.1⟩
      intro s₀ nm₀ h₀
      exact absurd rfl (hno _ h₀)
  | some sv =>
    have hmem : (c.2.1, sv) ∈ m := lookup_some_mem hl
    have huniq : ∀ s₀ nm₀, (c.2.1, s₀, nm₀) ∈ m → (s₀, nm₀) = sv := by
      intro s₀ nm₀ h₀
      exact mem_unique_of_keys_nodup hnd h₀ hmem
    rw [bestStep_some hl] at h
    by_cases hlt : c.1 < sv.1
    · simp only [hlt, if_true] at h
      obtain ⟨e₀, he₀, heq⟩ := List.mem_map.mp h
      by_cases hk : e₀.1 == c.2.1
      · simp only [hk, if_true] at heq
        have hs : c.1 = s := by
          have := congrArg (fun x => x.2.1) heq
          simpa using this
        subst hs
        refine ⟨le_refl _, ?_, Or.inr rfl⟩
        intro s₀ nm₀ h₀
        have := huniq s₀ nm₀ h₀
        have hs₀ : s₀ = sv.1 := by
          have := congrArg Prod.fst this
          simpa using this
        omega
      · have hk' : (e₀.1 == c.2.1) = false := by simpa using hk
        simp only [hk', Bool.false_eq_true, if_false] at heq
        subst heq
        simp at hk'
    · simp only [hlt, if_false] at h
      have := huniq s nm h
      have hs : s = sv.1 := by
        have := congrArg Prod.fst this
        simpa using this
      refine ⟨by omega, ?_, Or.inl ⟨nm, h⟩⟩
      intro s₀ nm₀ h₀
      have hs₀ : s₀ = sv.1 := by
        have := congrArg Prod.fst (huniq s₀ nm₀ h₀)
        simpa using this
      omega

/-- Full specification of the `best_by_group` fold: key uniqueness, key
coverage, and minimality of the recorded score, for any iteration order
and any starting dict. -/
theorem best_fold_spec :
    ∀ (cands : List (Nat × Nat × List Char)) (m : List (Nat × Nat × List Char)),
      (m.map (fun e => e.1)).Nodup →
      ((((cands.foldl bestStep m).map (fun e => e.1)).Nodup)
      ∧ (∀ gid, (∃ e ∈ cands.foldl bestStep m, e.1 = gid) ↔
           ((∃ e ∈ m, e.1 = gid) ∨ (∃ c ∈ cands, c.2.1 = gid)))
      ∧ (∀ gid s nm, (gid, s, nm) ∈ cands.foldl bestStep m →
           ((∀ s' nm', (s', gid, nm') ∈ cands → s ≤ s')
           ∧ (∀ s₀ nm₀, (gid, s₀, nm₀) ∈ m → s ≤ s₀)
           ∧ ((∃ nm₀, (gid, s, nm₀) ∈ m) ∨ (∃ nm', (s, gid, nm') ∈ cands))))) := by
  intro cands
  induction cands with
  | nil =>
    intro m hm
    refine ⟨hm, by intro gid; simp, ?_⟩
    intro gid s nm h
    refine ⟨by simp, ?_, Or.inl ⟨nm, h⟩⟩
    intro s₀ nm₀ h₀
    have huv := mem_unique_of_keys_nodup hm h h₀
    have hs := congrArg Prod.fst huv
    simp at hs
    omega
  | cons c cs ih =>
    intro m hm
    have hm' := bestStep_keys_nodup (c := c) hm
    obtain ⟨ih1, ih2, ih3⟩ := ih (bestStep m c) hm'
    rw [List.foldl_cons]
    refine ⟨ih1, ?_, ?_⟩
    · intro gid
      rw [ih2 gid, bestStep_keys_iff]
      constructor
      · rintro ((h | h) | h)
        · exact Or.inl h
        · exact Or.inr ⟨c, by simp, h⟩
        · obtain ⟨c', hc', hcg⟩ := h
          exact Or.inr ⟨c', List.mem_cons_of_mem _ hc', hcg⟩
      · rintro (h | ⟨c', hc', hcg⟩)
        · exact Or.inl (Or.inl h)
        · rcases List.mem_cons.mp hc' with rfl | hc'
          · exact Or.inl (Or.inr hcg)
          · exact Or.inr ⟨c', hc', hcg⟩
    · intro gid s nm h
      obtain ⟨hmin_cs, hle_m', horigin⟩ := ih3 gid s nm h
      by_cases hgc : gid = c.2.1
      · subst hgc
        obtain ⟨t, nmt, hmem_t, htle⟩ := bestStep_exists_self (m := m) (c := c)
        have hsle_t : s ≤ t := hle_m' t nmt hmem_t
        have hprops := bestStep_mem_self hm hmem_t
        refine ⟨?_, ?_, ?_⟩
        · intro s' nm' hmem'
          rcases List.mem_cons.mp hmem' with heq | hmem'
          · have hs' := congrArg Prod.fst heq
            simp at hs'
            omega
          · exact hmin_cs s' nm' hmem'
        · intro s₀ nm₀ hmem₀
          exact le_trans hsle_t (hprops.2.1 s₀ nm₀ hmem₀)
        · rcases horigin with ⟨nm₀, hmem₀⟩ | h'
          · have hp₀ := bestStep_mem_self hm hmem₀
            rcases hp₀.2.2 with ⟨nm₁, hmem₁⟩ | hseq
            · exact Or.inl ⟨nm₁, hmem₁⟩
            · refine Or.inr ⟨c.2.2, ?_⟩
              rw [hseq]
              exact List.mem_cons_self _ _
          · obtain ⟨nm', h''⟩ := h'
            exact Or.inr ⟨nm', List.mem_cons_of_mem _ h''⟩
      · refine ⟨?_, ?_, ?_⟩
        · intro s' nm' hmem'
          rcases List.mem_cons.mp hmem' with heq | hmem'
          · exfalso
            apply hgc
            have h21 := congrArg (fun x => x.2.1) heq
            simp at h21
            omega
          · exact hmin_cs s' nm' hmem'
        · intro s₀ nm₀ hmem₀
          exact hle_m' s₀ nm₀ ((bestStep_mem_ne hgc).mpr hmem₀)
        · rcases horigin with ⟨nm₀, hmem₀⟩ | h'
          · exact Or.inl ⟨nm₀, (bestStep_mem_ne hgc).mp hmem₀⟩
          · obtain ⟨nm', h''⟩ := h'
            exact Or.inr ⟨nm', List.mem_cons_of_mem _ h''⟩

/-- C4: for every candidate list — hence regardless of iteration order —
the Group Aggregator emits at most one entry per group id, every emitted
group's recorded best tier is the minimum tier among that group's
candidates (and is attained by one of them), and the emitted group ids
are exactly the candidate group ids. -/
theorem c4_aggregator_best_tier_min (cands : List (Nat × Nat × List Char)) :
    ((best_by_group cands).map (fun e => e.1)).Nodup
    ∧ (∀ gid s nm, (gid, s, nm) ∈ best_by_group cands →
        (∃ nm', (s, gid, nm') ∈ cands)
        ∧ (∀ s' nm', (s', gid, nm') ∈ cands → s ≤ s'))
    ∧ (∀ gid, (∃ e ∈ best_by_group cands, e.1 = gid) ↔
        (∃ c ∈ cands, c.2.1 = gid)) := by
  obtain ⟨h1, h2, h3⟩ := best_fold_spec cands [] (by simp)
  unfold best_by_group
  refine ⟨h1, ?_, ?_⟩
  · intro gid s nm h
    obtain ⟨hmin, _, horig⟩ := h3 gid s nm h
    rcases horig with ⟨nm₀, h₀⟩ | h'
    · simp at h₀
    · exact ⟨h', hmin⟩
  · intro gid
    rw [h2 gid]
    simp

/-- Witness for C4 at a concrete three-candidate list with a duplicated
group. -/
theorem c4_witness :
    (∃ nm', ((0 : Nat), (7 : Nat), nm') ∈
        [((2 : Nat), (7 : Nat), "a".data), (0, 7, "b".data), (1, 5, "c".data)])
    ∧ (∀ s' nm', (s', (7 : Nat), nm') ∈
        [((2 : Nat), (7 : Nat), "a".data), (0, 7, "b".data), (1, 5, "c".data)] →
        0 ≤ s') :=
  (c4_aggregator_best_tier_min _).2.1 7 0 "b".data (by decide)

/-- C9: the Normalizer is idempotent, and it is a total function mapping
the empty input to the empty string. -/
theorem c9_normalizer_idempotent_total :
    (∀ s : List Char, normalize (normalize s) = normalize s)
    ∧ normalize [] = [] :=
  ⟨normalize_idem, rfl⟩

/-- C5: a query that is empty or whitespace-only after trimming —
equivalently, one whose normalized form is empty — is rejected with the
bad-request response, not a "not found" result. -/
theorem c5_empty_query_rejected (db : DB) (q : List Char) :
    (pyStrip q = [] ↔ normalize q = [])
    ∧ (normalize q = [] → searchGet db q = ApiResponse.badRequest) := by
  constructor
  · rw [pyStrip_eq_nil_iff, normalize_eq_nil_iff]
  · intro h
    have h' : normalize (pyStrip q) = [] := by
      rw [normalize_pyStrip]; exact h
    unfold searchGet
    simp [h']

/-- Witness for C5 at a concrete whitespace-only query. -/
theorem c5_witness :
    searchGet { groups := [], glasses := [], aliases := [] } " \t ".data
      = ApiResponse.badRequest :=
  (c5_empty_query_rejected { groups := [], glasses := [], aliases := [] }
    " \t ".data).2 (by decide)

theorem tripleLe_trans : ∀ a b c : Nat × Nat × Nat,
    tripleLe a b = true → tripleLe b c = true → tripleLe a c = true := by
  intro a b c hab hbc
  simp only [tripleLe, Bool.or_eq_true, Bool.and_eq_true, decide_eq_true_eq,
    beq_iff_eq] at hab hbc ⊢
  omega

theorem tripleLe_total : ∀ a b : Nat × Nat × Nat,
    tripleLe a b = true ∨ tripleLe b a = true := by
  intro a b
  simp only [tripleLe, Bool.or_eq_true, Bool.and_eq_true, decide_eq_true_eq,
    beq_iff_eq]
  omega

/-- The shared-brand test, phrased exactly as the spec describes it:
split on commas, strip and lower-case each part, keep the non-empty
parts, and test membership of the sentinel token. -/
theorem brands_has_common_iff (brands : List Char) :
    brands_has_common brands = true ↔
      "общие".data ∈ (splitChar ',' (pyStrip brands)).filterMap
        (fun p => let t := pyStrip p; if t = [] then none else some (pyLower t)) := by
  unfold brands_has_common
  by_cases hb : pyStrip brands = []
  · rw [hb]
    simp only [if_pos rfl]
    constructor
    · intro h; simp at h
    · intro h
      simp [splitChar] at h
      exact absurd rfl h.1
  · rw [if_neg hb]
    rw [List.elem_iff]

/-- C1: the Ranker output is sorted ascending by the composite key
`(sharedFlag, bestTier, groupId)`; `sharedFlag = 0` exactly when the
group's comma-separated brand list, split on commas with each part
trimmed and lower-cased, contains the sentinel token; consequently every
group with `sharedFlag = 0` precedes every group with `sharedFlag = 1`,
regardless of tiers. -/
theorem c1_ranker_order (db : DB) (best : List (Nat × Nat × List Char)) :
    List.Pairwise (fun a b =>
      tripleLe (sortGidKey db best a) (sortGidKey db best b) = true)
      (rankedGroupIds db best)
    ∧ (∀ gid, (sortGidKey db best gid).1 = 0 ↔
        "общие".data ∈ (splitChar ','
          (pyStrip (match groupsById db gid with
                    | some g => g.brands
                    | none => []))).filterMap
          (fun p => let t := pyStrip p; if t = [] then none else some (pyLower t)))
    ∧ (∀ i j : Fin (rankedGroupIds db best).length,
        (sortGidKey db best ((rankedGroupIds db best).get i)).1 = 0 →
        (sortGidKey db best ((rankedGroupIds db best).get j)).1 = 1 →
        (i : Nat) < (j : Nat)) := by
  have hsorted : List.Pairwise (fun a b =>
      tripleLe (sortGidKey db best a) (sortGidKey db best b) = true)
      (rankedGroupIds db best) := by
    unfold rankedGroupIds
    exact pySorted_pairwise
      (fun a b c => tripleLe_trans (sortGidKey db best a) (sortGidKey db best b)
        (sortGidKey db best c))
      (fun a b => by
        rcases tripleLe_total (sortGidKey db best a) (sortGidKey db best b) with h | h
        · exact Or.inl h
        · exact Or.inr h)
      (surviving_gids db best)
  refine ⟨hsorted, ?_, ?_⟩
  · intro gid
    show (if brands_has_common _ then 0 else 1) = 0 ↔ _
    rw [← brands_has_common_iff]
    by_cases h : brands_has_common (match groupsById db gid with
      | some g => g.brands
      | none => []) = true
    · simp [h]
    · have h' : brands_has_common (match groupsById db gid with
        | some g => g.brands
        | none => []) = false := by simpa using h
      simp [h']
  · intro i j hi hj
    have hget := List.pairwise_iff_get.mp hsorted
    rcases Nat.lt_trichotomy (i : Nat) (j : Nat) with h | h | h
    · exact h
    · exfalso
      have hij : i = j := Fin.ext h
      rw [hij, hj] at hi
      omega
    · exfalso
      have hle := hget j i (by omega)
      simp only [tripleLe, hi, hj, Bool.or_eq_true, Bool.and_eq_true,
        decide_eq_true_eq, beq_iff_eq] at hle
      omega

/-- Concrete Ranker input for the C1 witness: a shared-brand group with a
worse tier and a brand-specific group with a better tier. -/
def dbC1 : DB :=
  { groups :=
      [{ id := 1, name := "g1".data, brands := "HOCO".data,
         description := [], external_id := [], is_active := true },
       { id := 2, name := "g2".data, brands := "ОБЩИЕ".data,
         description := [], external_id := [], is_active := true }],
    glasses := [], aliases := [] }

def bestC1 : List (Nat × Nat × List Char) :=
  [(1, 0, "a".data), (2, 2, "b".data)]

/-- Witness for C1: in the concrete ranking the shared group (flag 0,
position 0) precedes the brand-specific group (flag 1, position 1). -/
theorem c1_witness : (0 : Nat) < 1 :=
  (c1_ranker_order dbC1 bestC1).2.2
    ⟨0, by decide⟩ ⟨1, by decide⟩ (by decide) (by decide)

theorem prefixOf_false_iff {l₁ l₂ : List Char} :
    (l₁.isPrefixOf l₂ = false) ↔ ¬ l₁ <+: l₂ := by
  rw [Bool.eq_false_iff, ne_eq, List.isPrefixOf_iff_prefix]

/-- C3: every emitted Candidate's tier lies in 0..4; an alias of the
active corpus lies in the tier-0 / tier-1 / tier-2 querysets exactly
under the claimed membership conditions, which are mutually exclusive; a
record name lies in the tier-3 / tier-4 querysets exactly under
case-insensitive equality, resp. case-insensitive containment without
equality, also mutually exclusive.  The hypothesis is the catalog
invariant that `normalized_alias` is the normalizer's output, which
`GlassAlias.save` re-establishes on every write. -/
theorem c3_matcher_tier_assignment (db : DB) (q : List Char)
    (hnorm : ∀ a ∈ db.aliases, a.normalized_alias = normalize a.alias_value) :
    (∀ c ∈ candidatesOf db q, c.1 ≤ 4)
    ∧ (∀ a ∈ aliasBase db,
        ((a ∈ alias_exact db (normalize (pyStrip q))) ↔
          a.normalized_alias = normalize (pyStrip q))
        ∧ ((a ∈ alias_starts db (normalize (pyStrip q))) ↔
          (normalize (pyStrip q) <+: a.normalized_alias
            ∧ a.normalized_alias ≠ normalize (pyStrip q)))
        ∧ ((a ∈ alias_contains db (normalize (pyStrip q))) ↔
          (normalize (pyStrip q) <:+: a.normalized_alias
            ∧ a.normalized_alias ≠ normalize (pyStrip q)
            ∧ ¬ normalize (pyStrip q) <+: a.normalized_alias)))
    ∧ (∀ g ∈ glassBase db,
        ((g ∈ name_exact db (pyStrip q)) ↔ pyLower g.name = pyLower (pyStrip q))
        ∧ ((g ∈ name_contains db (pyStrip q)) ↔
          (pyLower (pyStrip q) <:+: pyLower g.name
            ∧ pyLower g.name ≠ pyLower (pyStrip q))))
    ∧ (∀ a ∈ aliasBase db,
        ¬((a ∈ alias_exact db (normalize (pyStrip q)))
            ∧ a ∈ alias_starts db (normalize (pyStrip q)))
        ∧ ¬((a ∈ alias_exact db (normalize (pyStrip q)))
            ∧ a ∈ alias_contains db (normalize (pyStrip q)))
        ∧ ¬((a ∈ alias_starts db (normalize (pyStrip q)))
            ∧ a ∈ alias_contains db (normalize (pyStrip q))))
    ∧ (∀ g ∈ glassBase db,
        ¬((g ∈ name_exact db (pyStrip q)) ∧ g ∈ name_contains db (pyStrip q))) := by
  have hql : pyLower (normalize (pyStrip q)) = normalize (pyStrip q) :=
    pyLower_normalize _
  have halias : ∀ a ∈ aliasBase db,
      ((a ∈ alias_exact db (normalize (pyStrip q))) ↔
        a.normalized_alias = normalize (pyStrip q))
      ∧ ((a ∈ alias_starts db (normalize (pyStrip q))) ↔
        (normalize (pyStrip q) <+: a.normalized_alias
          ∧ a.normalized_alias ≠ normalize (pyStrip q)))
      ∧ ((a ∈ alias_contains db (normalize (pyStrip q))) ↔
        (normalize (pyStrip q) <:+: a.normalized_alias
          ∧ a.normalized_alias ≠ normalize (pyStrip q)
          ∧ ¬ normalize (pyStrip q) <+: a.normalized_alias)) := by
    intro a ha
    have hadb : a ∈ db.aliases := List.mem_of_mem_filter ha
    have hal : pyLower a.normalized_alias = a.normalized_alias := by
      rw [hnorm a hadb, pyLower_normalize]
    have hic : icontains (normalize (pyStrip q)) a.normalized_alias = true ↔
        normalize (pyStrip q) <:+: a.normalized_alias := by
      unfold icontains
      rw [hql, hal, hasSubstr_iff]
    refine ⟨?_, ?_, ?_⟩
    · unfold alias_exact
      rw [List.mem_filter]
      simp [ha]
    · unfold alias_starts
      rw [List.mem_filter]
      simp only [ha, true_and, Bool.and_eq_true, Bool.not_eq_true',
        beq_eq_false_iff_ne, ne_eq, List.isPrefixOf_iff_prefix]
    · unfold alias_contains
      rw [List.mem_filter]
      simp only [ha, true_and, Bool.and_eq_true, Bool.not_eq_true',
        beq_eq_false_iff_ne, ne_eq, prefixOf_false_iff, hic]
      tauto
  have hglass : ∀ g ∈ glassBase db,
      ((g ∈ name_exact db (pyStrip q)) ↔ pyLower g.name = pyLower (pyStrip q))
      ∧ ((g ∈ name_contains db (pyStrip q)) ↔
        (pyLower (pyStrip q) <:+: pyLower g.name
          ∧ pyLower g.name ≠ pyLower (pyStrip q))) := by
    intro g hg
    have hic : icontains (pyStrip q) g.name = true ↔
        pyLower (pyStrip q) <:+: pyLower g.name := by
      unfold icontains
      rw [hasSubstr_iff]
    constructor
    · unfold name_exact
      rw [List.mem_filter]
      simp [hg]
    · unfold name_contains
      rw [List.mem_filter]
      simp only [hg, true_and, Bool.and_eq_true, Bool.not_eq_true',
        beq_eq_false_iff_ne, ne_eq, hic]
  refine ⟨?_, halias, hglass, ?_, ?_⟩
  · intro c hc
    simp only [candidatesOf, List.mem_append, List.mem_map] at hc
    rcases hc with ((((⟨a, _, rfl⟩ | ⟨a, _, rfl⟩) | ⟨a, _, rfl⟩) | ⟨g, _, rfl⟩)
      | ⟨g, _, rfl⟩) <;> norm_num
  · intro a ha
    obtain ⟨h1, h2, h3⟩ := halias a ha
    refine ⟨?_, ?_, ?_⟩
    · rintro ⟨hx, hy⟩
      exact ((h2.mp hy).2) (h1.mp hx)
    · rintro ⟨hx, hy⟩
      exact ((h3.mp hy).2.1) (h1.mp hx)
    · rintro ⟨hx, hy⟩
      exact ((h3.mp hy).2.2) ((h2.mp hx).1)
  · intro g hg
    obtain ⟨h1, h2⟩ := hglass g hg
    rintro ⟨hx, hy⟩
    exact ((h2.mp hy).2) (h1.mp hx)

/-- Concrete corpus for the C3 witness: one active alias whose stored
normalized form is the normalizer's output. -/
def glassC3 : Glass := { name := "Samsung A13".data, group_id := 1, is_active := true }

def aliasC3 : GlassAlias :=
  { alias_value := " A13 ".data, normalized_alias := "a13".data, glass := glassC3 }

def dbC3 : DB :=
  { groups := [{ id := 1, name := "g1".data, brands := [], description := [],
                 external_id := [], is_active := true }],
    glasses := [glassC3],
    aliases := [aliasC3] }

/-- Witness for C3: at the concrete corpus the tier-0 membership
condition holds exactly as claimed. -/
theorem c3_witness :
    (aliasC3 ∈ alias_exact dbC3 (normalize (pyStrip "  A13 ".data)) ↔
      aliasC3.normalized_alias = normalize (pyStrip "  A13 ".data)) :=
  ((c3_matcher_tier_assignment dbC3 "  A13 ".data (by decide)).2.1
    aliasC3 (by decide)).1

/-- C6: for a non-empty query, an empty candidate set — or one whose
groups all fail the active-group refetch — yields the successful
"not found" response echoing the trimmed query, and a found response
always carries a non-empty results list and echoes the trimmed query. -/
theorem c6_not_found_contract (db : DB) (q : List Char)
    (hq : ¬ normalize (pyStrip q) = []) :
    (candidatesOf db q = [] → searchGet db q = ApiResponse.notFound (pyStrip q))
    ∧ ((∀ c ∈ candidatesOf db q, groupsById db c.2.1 = none) →
        searchGet db q = ApiResponse.notFound (pyStrip q))
    ∧ (∀ qs res, searchGet db q = ApiResponse.ok qs res →
        res ≠ [] ∧ qs = pyStrip q) := by
  refine ⟨?_, ?_, ?_⟩
  · intro hcand
    simp only [searchGet]
    rw [if_neg hq, if_pos hcand]
  · intro hall
    by_cases hcand : candidatesOf db q = []
    · simp only [searchGet]
      rw [if_neg hq, if_pos hcand]
    · have hkeys := (best_fold_spec (candidatesOf db q) [] (by simp)).2.1
      have hsurv : surviving_gids db (best_by_group (candidatesOf db q)) = [] := by
        unfold surviving_gids
        rw [List.filter_eq_nil_iff]
        intro gid hgid
        obtain ⟨e, he, rfl⟩ := List.mem_map.mp hgid
        unfold best_by_group at he
        rcases (hkeys e.1).mp ⟨e, he, rfl⟩ with ⟨e₀, he₀, _⟩ | ⟨c, hc, hceq⟩
        · simp at he₀
        · have hnone := hall c hc
          rw [hceq] at hnone
          simp [hnone]
      have hranked : rankedGroupIds db (best_by_group (candidatesOf db q)) = [] := by
        unfold rankedGroupIds
        rw [hsurv]
        rfl
      simp only [searchGet]
      rw [if_neg hq, if_neg hcand, hranked]
      simp
  · intro qs res h
    simp only [searchGet] at h
    rw [if_neg hq] at h
    by_cases hcand : candidatesOf db q = []
    · rw [if_pos hcand] at h
      exact absurd h (by simp)
    · rw [if_neg hcand] at h
      by_cases hres : (rankedGroupIds db (best_by_group (candidatesOf db q))).filterMap
          (resultFor db (best_by_group (candidatesOf db q))) = []
      · rw [if_pos hres] at h
        exact absurd h (by simp)
      · rw [if_neg hres] at h
        simp only [ApiResponse.ok.injEq] at h
        obtain ⟨hqs, hres'⟩ := h
        refine ⟨?_, hqs.symm⟩
        rw [← hres']
        exact hres

/-- Witness for C6: a query matching nothing in an empty corpus returns
the "not found" response echoing the trimmed query. -/
theorem c6_witness :
    searchGet { groups := [], glasses := [], aliases := [] } " zzz ".data
      = ApiResponse.notFound "zzz".data := by
  have h := (c6_not_found_contract
    { groups := [], glasses := [], aliases := [] } " zzz ".data (by decide)).1
    (by decide)
  rw [h]
  decide

theorem joinSep_cons_ex (sep x : List Char) (r : List (List Char)) :
    ∃ t, joinSep sep (x :: r) = x ++ t := by
  cases r with
  | nil => exact ⟨[], by simp [joinSep]⟩
  | cons y r' =>
    exact ⟨sep ++ joinSep sep (y :: r'), by rw [joinSep_cons_cons, List.append_assoc]⟩

theorem joinSep_marker_prefix (x : List Char) (r : List (List Char)) :
    ∃ t, joinSep ['\n'] ((marker ++ x) :: r) = marker ++ t := by
  obtain ⟨t, ht⟩ := joinSep_cons_ex ['\n'] (marker ++ x) r
  exact ⟨x ++ t, by rw [ht, List.append_assoc]⟩

theorem groupBlock_head (idx : Nat) (item : ResultItem) (p : Bool) (L : Int) :
    ∃ t, groupBlock idx item p L = marker ++ t := by
  simp only [groupBlock, List.append_assoc, List.singleton_append]
  exact joinSep_marker_prefix _ _

theorem ctaBlock_ne_groupBlock (idx : Nat) (item : ResultItem) (p : Bool) (L : Int) :
    groupBlock idx item p L ≠ ctaBlock := by
  obtain ⟨t, ht⟩ := groupBlock_head idx item p L
  rw [ht]
  intro h
  have hh := congrArg (fun l => l.head?) h
  simp [marker, ctaBlock] at hh

theorem ctaBlock_ne_summaryBlock (a b c : Nat) :
    summaryBlock a b c ≠ ctaBlock := by
  intro h
  have hh := congrArg (fun l => l.head?) h
  simp [summaryBlock, ctaBlock] at hh

/-- Normal form of the `lines` construction: the item-or-placeholder part
followed by an optional locked-count line. -/
theorem linesFor_eq (uniq : List (List Char)) (p : Bool) (L : Int) :
    linesFor uniq p L =
      (if shownItems uniq p L ≠ [] then (shownItems uniq p L).map itemMark
       else [emptyLine])
      ++ (if p = false ∧ restItems uniq p L > 0
          then [lockedLine (restItems uniq p L)] else []) := by
  simp only [linesFor]
  by_cases h : p = false ∧ restItems uniq p L > 0
  · rw [if_pos h, if_pos h]
  · rw [if_neg h, if_neg h, List.append_nil]

theorem shownItems_free_3 (uniq : List (List Char)) :
    shownItems uniq false 3 = uniq.take 3 := by
  unfold shownItems
  rw [if_neg (by simp)]
  rw [show ((max 0 (3 : Int)).toNat) = 3 by decide]

theorem restItems_free (uniq : List (List Char)) (L : Int) :
    restItems uniq false L = uniq.length - (shownItems uniq false L).length := by
  unfold restItems
  rw [if_neg (by simp)]

theorem shownItems_premium (uniq : List (List Char)) (L : Int) :
    shownItems uniq true L = uniq := by
  unfold shownItems
  simp

theorem restItems_premium (uniq : List (List Char)) (L : Int) :
    restItems uniq true L = 0 := by
  unfold restItems
  simp

/-- C2: with the default cap 3 in the free tier, a group with more than
three distinct names shows exactly the first three item lines followed by
one locked-count line stating how many are hidden; with at most three
(and at least one) it shows exactly all item lines and no locked line;
in the premium tier all item lines are shown with no locked line for any
cap; a group with no names shows the placeholder only; and the premium
rendering contains no call-to-action block. -/
theorem c2_renderer_tier_lines (gs : List (List Char)) (L : Int)
    (data : RenderData) :
    ((uniqNames gs).length > 3 →
      linesFor (uniqNames gs) false 3 =
        ((uniqNames gs).take 3).map itemMark
          ++ [lockedLine ((uniqNames gs).length - 3)]
      ∧ (((uniqNames gs).take 3).map itemMark).length = 3)
    ∧ (1 ≤ (uniqNames gs).length → (uniqNames gs).length ≤ 3 →
      linesFor (uniqNames gs) false 3 = (uniqNames gs).map itemMark)
    ∧ (1 ≤ (uniqNames gs).length →
      linesFor (uniqNames gs) true L = (uniqNames gs).map itemMark)
    ∧ ((uniqNames gs).length = 0 → ∀ p : Bool,
      linesFor (uniqNames gs) p L = [emptyLine])
    ∧ ctaBlock ∉ formatBlocks data true L := by
  refine ⟨?_, ?_, ?_, ?_, ?_⟩
  · intro hN
    have hne : uniqNames gs ≠ [] := by
      intro h; rw [h] at hN; simp at hN
    have htne : (uniqNames gs).take 3 ≠ [] := by
      rw [ne_eq, List.take_eq_nil_iff]
      push_neg
      exact ⟨by omega, hne⟩
    have hlen3 : ((uniqNames gs).take 3).length = 3 := by
      rw [List.length_take]
      omega
    have hrest : restItems (uniqNames gs) false 3 = (uniqNames gs).length - 3 := by
      rw [restItems_free, shownItems_free_3, hlen3]
    constructor
    · rw [linesFor_eq, shownItems_free_3, hrest, if_pos htne,
        if_pos ⟨rfl, by omega⟩]
    · rw [List.length_map, hlen3]
  · intro h1 h3
    have hne : uniqNames gs ≠ [] := by
      intro h; rw [h] at h1; simp at h1
    have hfull : (uniqNames gs).take 3 = uniqNames gs :=
      List.take_of_length_le h3
    have hrest : restItems (uniqNames gs) false 3 = 0 := by
      rw [restItems_free, shownItems_free_3, hfull]
      omega
    rw [linesFor_eq, shownItems_free_3, hfull, hrest, if_pos hne,
      if_neg (by simp), List.append_nil]
  · intro h1
    have hne : uniqNames gs ≠ [] := by
      intro h; rw [h] at h1; simp at h1
    rw [linesFor_eq, shownItems_premium, restItems_premium, if_pos hne,
      if_neg (by simp), List.append_nil]
  · intro h0 p
    have hnil : uniqNames gs = [] := List.length_eq_zero.mp h0
    rw [hnil, linesFor_eq]
    have hshown : shownItems [] p L = [] := by
      unfold shownItems
      cases p <;> simp
    have hrest : restItems [] p L = 0 := by
      unfold restItems
      cases p <;> simp [hshown]
    rw [hshown, hrest, if_neg (fun h => h rfl), if_neg (by simp),
      List.append_nil]
  · intro hmem
    unfold formatBlocks at hmem
    simp only [if_true, List.append_nil, List.nil_append] at hmem
    rcases List.mem_append.mp hmem with hmem | hmem
    · rcases List.mem_append.mp hmem with hmem | hmem
      · simp at hmem
        exact absurd hmem.symm (by decide)
      · obtain ⟨pr, _, hpr⟩ := List.mem_map.mp hmem
        exact ctaBlock_ne_groupBlock _ _ _ _ hpr
    · by_cases hrem : (pySorted (fun a b => decide (itemSortFlag a ≤ itemSortFlag b))
          (effResults data)).length
          - ((pySorted (fun a b => decide (itemSortFlag a ≤ itemSortFlag b))
            (effResults data)).take 5).length > 0
      · rw [if_pos hrem] at hmem
        simp at hmem
        exact absurd hmem.symm (ctaBlock_ne_summaryBlock _ _ _)
      · rw [if_neg hrem] at hmem
        simp at hmem

/-- Witness for C2 on a concrete five-item group in the free tier. -/
theorem c2_witness :
    linesFor (uniqNames ["a".data, "b".data, "c".data, "d".data, "e".data])
        false 3 =
      ((uniqNames ["a".data, "b".data, "c".data, "d".data, "e".data]).take 3).map
          itemMark
        ++ [lockedLine 2] :=
  ((c2_renderer_tier_lines ["a".data, "b".data, "c".data, "d".data, "e".data]
    3 { found := true, query := [], results := [] }).1 (by decide)).1

/-- C10: in the free tier with a non-positive item cap, a non-empty group
renders the placeholder line followed by a locked-count line hiding all
its items. -/
theorem c10_zero_cap_placeholder (gs : List (List Char)) (L : Int)
    (hL : L ≤ 0) (hN : 1 ≤ (uniqNames gs).length) :
    linesFor (uniqNames gs) false L
      = [emptyLine, lockedLine (uniqNames gs).length] := by
  have hmax : ((max 0 L).toNat) = 0 := by
    have h0 : max 0 L = 0 := by omega
    rw [h0]
    rfl
  have hshown : shownItems (uniqNames gs) false L = [] := by
    unfold shownItems
    rw [if_neg (by simp), hmax, List.take_zero]
  have hrest : restItems (uniqNames gs) false L = (uniqNames gs).length := by
    rw [restItems_free, hshown]
    simp
  rw [linesFor_eq, hshown, hrest, if_neg (fun h => h rfl),
    if_pos ⟨rfl, by omega⟩]
  rfl

/-- Witness for C10 at a one-item group and cap −1. -/
theorem c10_witness :
    linesFor (uniqNames ["a".data]) false (-1)
      = [emptyLine, lockedLine 1] := by
  have h := c10_zero_cap_placeholder ["a".data] (-1) (by decide) (by decide)
  rw [h]
  decide

/-- A block is a group block when it starts with the ordinal marker. -/
def isGroupBlockB (b : List Char) : Bool := marker.isPrefixOf b

/-- A block is the trailing summary when it starts with the summary
marker. -/
def isSummaryBlockB (b : List Char) : Bool := "\nℹ️".data.isPrefixOf b

theorem isPrefixOf_append_of_le {pat a : List Char} (b : List Char)
    (h : pat.length ≤ a.length) :
    pat.isPrefixOf (a ++ b) = pat.isPrefixOf a := by
  induction pat generalizing a with
  | nil => simp [List.isPrefixOf]
  | cons p ps ih =>
    cases a with
    | nil => simp at h
    | cons x a' =>
      simp only [List.cons_append, List.isPrefixOf, List.append_eq]
      rw [ih (a := a') (by simp at h; omega)]

theorem isGroupBlockB_groupBlock (idx : Nat) (item : ResultItem) (p : Bool)
    (L : Int) : isGroupBlockB (groupBlock idx item p L) = true := by
  obtain ⟨t, ht⟩ := groupBlock_head idx item p L
  rw [ht]
  unfold isGroupBlockB
  exact List.isPrefixOf_iff_prefix.mpr ⟨t, rfl⟩

theorem isSummaryBlockB_groupBlock (idx : Nat) (item : ResultItem) (p : Bool)
    (L : Int) : isSummaryBlockB (groupBlock idx item p L) = false := by
  obtain ⟨t, ht⟩ := groupBlock_head idx item p L
  rw [ht]
  unfold isSummaryBlockB
  rw [isPrefixOf_append_of_le t (by decide)]
  decide

theorem isGroupBlockB_summaryBlock (a b c : Nat) :
    isGroupBlockB (summaryBlock a b c) = false := by
  unfold isGroupBlockB summaryBlock
  simp only [List.append_assoc]
  rw [isPrefixOf_append_of_le _ (by decide)]
  decide

theorem isSummaryBlockB_summaryBlock (a b c : Nat) :
    isSummaryBlockB (summaryBlock a b c) = true := by
  unfold isSummaryBlockB summaryBlock
  simp only [List.append_assoc]
  rw [isPrefixOf_append_of_le _ (by decide)]
  decide

/-- C8: the renderer emits exactly `min(R, 5)` group blocks; when `R > 5`
it appends exactly one summary block — the last block, stating that 5 of
`R` were shown and `R − 5` remain; when `R ≤ 5` no summary block
appears. -/
theorem c8_group_cap_and_summary (data : RenderData) (prem : Bool) (L : Int) :
    ((formatBlocks data prem L).countP isGroupBlockB
        = min (effResults data).length 5)
    ∧ ((effResults data).length > 5 →
        (formatBlocks data prem L).countP isSummaryBlockB = 1
        ∧ (formatBlocks data prem L).getLast?
            = some (summaryBlock 5 (effResults data).length
                ((effResults data).length - 5)))
    ∧ ((effResults data).length ≤ 5 →
        (formatBlocks data prem L).countP isSummaryBlockB = 0) := by
  have hslen : (pySorted (fun a b => decide (itemSortFlag a ≤ itemSortFlag b))
      (effResults data)).length = (effResults data).length :=
    pySorted_length _ _
  have hshlen : ((pySorted (fun a b => decide (itemSortFlag a ≤ itemSortFlag b))
      (effResults data)).take 5).length = min 5 (effResults data).length := by
    rw [List.length_take, hslen]
  have hblocks : formatBlocks data prem L =
      (([headerBlock] ++ (if prem then [] else [ctaBlock]))
        ++ (((pySorted (fun a b => decide (itemSortFlag a ≤ itemSortFlag b))
              (effResults data)).take 5).enum.map
            (fun pr => groupBlock (pr.1 + 1) pr.2 prem L)))
      ++ (if (pySorted (fun a b => decide (itemSortFlag a ≤ itemSortFlag b))
              (effResults data)).length
            - ((pySorted (fun a b => decide (itemSortFlag a ≤ itemSortFlag b))
              (effResults data)).take 5).length > 0
          then [summaryBlock
              ((pySorted (fun a b => decide (itemSortFlag a ≤ itemSortFlag b))
                (effResults data)).take 5).length
              (pySorted (fun a b => decide (itemSortFlag a ≤ itemSortFlag b))
                (effResults data)).length
              ((pySorted (fun a b => decide (itemSortFlag a ≤ itemSortFlag b))
                  (effResults data)).length
                - ((pySorted (fun a b => decide (itemSortFlag a ≤ itemSortFlag b))
                  (effResults data)).take 5).length)]
          else []) := by
    simp only [formatBlocks, List.append_assoc]
  have hcta_g : (if prem then ([] : List (List Char)) else [ctaBlock]).countP
      isGroupBlockB = 0 := by
    cases prem <;> simp [List.countP_cons, show isGroupBlockB ctaBlock = false by decide]
  have hcta_s : (if prem then ([] : List (List Char)) else [ctaBlock]).countP
      isSummaryBlockB = 0 := by
    cases prem <;> simp [List.countP_cons, show isSummaryBlockB ctaBlock = false by decide]
  have hmap_g : ((((pySorted (fun a b => decide (itemSortFlag a ≤ itemSortFlag b))
      (effResults data)).take 5).enum.map
        (fun pr => groupBlock (pr.1 + 1) pr.2 prem L)).countP isGroupBlockB)
      = min 5 (effResults data).length := by
    rw [List.countP_eq_length.mpr ?_]
    · rw [List.length_map, List.enum_length, hshlen]
    · intro bl hbl
      obtain ⟨pr, _, rfl⟩ := List.mem_map.mp hbl
      exact isGroupBlockB_groupBlock _ _ _ _
  have hmap_s : ((((pySorted (fun a b => decide (itemSortFlag a ≤ itemSortFlag b))
      (effResults data)).take 5).enum.map
        (fun pr => groupBlock (pr.1 + 1) pr.2 prem L)).countP isSummaryBlockB)
      = 0 := by
    rw [List.countP_eq_zero.mpr ?_]
    intro bl hbl
    obtain ⟨pr, _, rfl⟩ := List.mem_map.mp hbl
    simp [isSummaryBlockB_groupBlock]
  refine ⟨?_, ?_, ?_⟩
  · rw [hblocks, List.countP_append, List.countP_append, List.countP_append]
    rw [hcta_g, hmap_g]
    rw [show ([headerBlock].countP isGroupBlockB) = 0 by
      simp [List.countP_cons, show isGroupBlockB headerBlock = false by decide]]
    by_cases hrem : (pySorted (fun a b => decide (itemSortFlag a ≤ itemSortFlag b))
        (effResults data)).length
        - ((pySorted (fun a b => decide (itemSortFlag a ≤ itemSortFlag b))
          (effResults data)).take 5).length > 0
    · rw [if_pos hrem]
      rw [show ([summaryBlock _ _ _].countP isGroupBlockB) = 0 by
        simp [List.countP_cons, isGroupBlockB_summaryBlock]]
      omega
    · rw [if_neg hrem]
      simp only [List.countP_nil]
      omega
  · intro hR
    have hrem : (pySorted (fun a b => decide (itemSortFlag a ≤ itemSortFlag b))
        (effResults data)).length
        - ((pySorted (fun a b => decide (itemSortFlag a ≤ itemSortFlag b))
          (effResults data)).take 5).length > 0 := by
      rw [hslen, hshlen]
      omega
    constructor
    · rw [hblocks, List.countP_append, List.countP_append, List.countP_append]
      rw [hcta_s, hmap_s]
      rw [show ([headerBlock].countP isSummaryBlockB) = 0 by
        simp [List.countP_cons, show isSummaryBlockB headerBlock = false by decide]]
      rw [if_pos hrem]
      rw [show ([summaryBlock _ _ _].countP isSummaryBlockB) = 1 by
        simp [List.countP_cons, isSummaryBlockB_summaryBlock]]
    · rw [hblocks, if_pos hrem, List.getLast?_concat]
      rw [hshlen, hslen]
      rw [show min 5 (effResults data).length = 5 by omega]
  · intro hR
    have hrem : ¬ ((pySorted (fun a b => decide (itemSortFlag a ≤ itemSortFlag b))
        (effResults data)).length
        - ((pySorted (fun a b => decide (itemSortFlag a ≤ itemSortFlag b))
          (effResults data)).take 5).length > 0) := by
      rw [hslen, hshlen]
      omega
    rw [hblocks, List.countP_append, List.countP_append, List.countP_append]
    rw [hcta_s, hmap_s]
    rw [show ([headerBlock].countP isSummaryBlockB) = 0 by
      simp [List.countP_cons, show isSummaryBlockB headerBlock = false by decide]]
    rw [if_neg hrem]
    simp

/-- Witness for C8 at a concrete found payload with seven result groups:
exactly five group blocks and one trailing summary block. -/
theorem c8_witness :
    (formatBlocks
        { found := true, query := [],
          results := List.replicate 7
            { matched_glass := "m".data,
              group := { id := 1, name := [], brands := [], description := [],
                         external_id := [] },
              compatible_glasses := [] } }
        true 3).countP isGroupBlockB = 5 := by
  have h := (c8_group_cap_and_summary
    { found := true, query := [],
      results := List.replicate 7
        { matched_glass := "m".data,
          group := { id := 1, name := [], brands := [], description := [],
                     external_id := [] },
          compatible_glasses := [] } }
    true 3).1
  rw [h]
  decide

theorem splitMarkerF_succ (fuel : Nat) (c : Char) (cs : List Char) :
    splitMarkerF (fuel + 1) (c :: cs) =
      if marker.isPrefixOf (c :: cs) then
        [] :: splitMarkerF fuel (List.drop 11 cs)
      else
        match splitMarkerF fuel cs with
        | [] => [[c]]
        | p :: ps => (c :: p) :: ps := rfl

theorem splitMarkerF_nil (fuel : Nat) : splitMarkerF fuel [] = [[]] := by
  cases fuel <;> rfl

theorem splitMarkerF_fuel : ∀ (f₁ f₂ : Nat) (s : List Char),
    s.length ≤ f₁ → s.length ≤ f₂ → splitMarkerF f₁ s = splitMarkerF f₂ s := by
  intro f₁
  induction f₁ with
  | zero =>
    intro f₂ s h₁ _
    have hs : s = [] := by cases s <;> simp_all
    subst hs
    rw [splitMarkerF_nil, splitMarkerF_nil]
  | succ g ih =>
    intro f₂ s h₁ h₂
    cases s with
    | nil => rw [splitMarkerF_nil, splitMarkerF_nil]
    | cons c cs =>
      cases f₂ with
      | zero => simp at h₂
      | succ h =>
        rw [splitMarkerF_succ, splitMarkerF_succ]
        by_cases hp : marker.isPrefixOf (c :: cs) = true
        · rw [if_pos hp, if_pos hp]
          congr 1
          apply ih
          · rw [List.length_drop]
            simp at h₁
            omega
          · rw [List.length_drop]
            simp at h₂
            omega
        · have hp' : ¬ (marker.isPrefixOf (c :: cs) = true) := hp
          rw [if_neg hp', if_neg hp']
          have hrec : splitMarkerF g cs = splitMarkerF h cs := by
            apply ih
            · simp at h₁; omega
            · simp at h₂; omega
          rw [hrec]

theorem splitMarker_ne_nil (s : List Char) : splitMarker s ≠ [] := by
  unfold splitMarker
  cases s with
  | nil => rw [splitMarkerF_nil]; simp
  | cons c cs =>
    rw [show (c :: cs).length = cs.length + 1 from rfl, splitMarkerF_succ]
    by_cases hp : marker.isPrefixOf (c :: cs) = true
    · rw [if_pos hp]; simp
    · rw [if_neg hp]
      cases h : splitMarkerF cs.length cs <;> simp

theorem splitMarker_marker_append (t : List Char) :
    splitMarker (marker ++ t) = [] :: splitMarker t := by
  unfold splitMarker
  have hlen : (marker ++ t).length = (11 + t.length) + 1 := by
    simp [marker]
    omega
  rw [hlen]
  rw [show marker ++ t = '\n' :: ("<b>Вариант ".data ++ t) from rfl]
  rw [splitMarkerF_succ]
  rw [if_pos (show marker.isPrefixOf ('\n' :: ("<b>Вариант ".data ++ t)) = true by
    exact List.isPrefixOf_iff_prefix.mpr ⟨t, rfl⟩)]
  congr 1
  have hdrop : List.drop 11 ("<b>Вариант ".data ++ t) = t := by
    rw [show (11 : Nat) = ("<b>Вариант ".data).length from rfl]
    exact List.drop_left _ _
  rw [hdrop]
  exact splitMarkerF_fuel _ _ t (by omega) (le_refl _)

theorem splitMarker_cons_not {c : Char} {cs : List Char}
    (h : marker.isPrefixOf (c :: cs) = false) :
    splitMarker (c :: cs) =
      match splitMarker cs with
      | [] => [[c]]
      | p :: ps => (c :: p) :: ps := by
  unfold splitMarker
  rw [show (c :: cs).length = cs.length + 1 from rfl, splitMarkerF_succ,
    if_neg (by simp [h])]

/-- Joining the marker split with the marker recovers the input. -/
theorem joinSep_splitMarker (s : List Char) :
    joinSep marker (splitMarker s) = s := by
  suffices h : ∀ (n : Nat) (s : List Char), s.length ≤ n →
      joinSep marker (splitMarker s) = s by
    exact h s.length s (le_refl _)
  intro n
  induction n with
  | zero =>
    intro s hs
    have : s = [] := by cases s <;> simp_all
    subst this
    rfl
  | succ n ih =>
    intro s hs
    cases s with
    | nil => rfl
    | cons c cs =>
      by_cases hp : marker.isPrefixOf (c :: cs) = true
      · obtain ⟨t, ht⟩ := List.isPrefixOf_iff_prefix.mp hp
        rw [← ht, splitMarker_marker_append]
        cases hsp : splitMarker t with
        | nil => exact absurd hsp (splitMarker_ne_nil t)
        | cons p ps =>
          rw [joinSep_cons_cons, List.nil_append]
          have htlen : t.length ≤ n := by
            have := congrArg List.length ht
            simp [marker] at this
            simp at hs
            omega
          have := ih t htlen
          rw [hsp] at this
          rw [this]
      · have hp' : marker.isPrefixOf (c :: cs) = false := by
          cases hb : marker.isPrefixOf (c :: cs)
          · rfl
          · exact absurd hb hp
        rw [splitMarker_cons_not hp']
        cases hsp : splitMarker cs with
        | nil => exact absurd hsp (splitMarker_ne_nil cs)
        | cons p ps =>
          rw [joinSep_cons_head]
          have := ih cs (by simp at hs; omega)
          rw [hsp] at this
          rw [this]

theorem words_append_marker (a b : List Char) :
    words (a ++ (marker ++ b)) = words a ++ words (marker ++ b) := by
  rw [show marker ++ b = '\n' :: ("<b>Вариант ".data ++ b) from rfl]
  rw [words_append_space (by decide) a _]
  rw [words_cons_space _ (by decide)]

theorem words_marker_joinSep : ∀ (ps : List (List Char)), ps ≠ [] →
    words (marker ++ joinSep marker ps) =
      (ps.map (fun x => words (marker ++ x))).flatten := by
  intro ps
  induction ps with
  | nil => intro h; exact absurd rfl h
  | cons x ps' ih =>
    intro _
    cases ps' with
    | nil => simp [joinSep]
    | cons y r =>
      rw [joinSep_cons_cons]
      rw [show marker ++ (x ++ marker ++ joinSep marker (y :: r))
          = (marker ++ x) ++ (marker ++ joinSep marker (y :: r)) by
        simp [List.append_assoc]]
      rw [words_append_marker]
      rw [ih (by simp)]
      simp

/-- The words of a marker-joined list are the words of the head followed
by the words of each marker-prefixed tail piece. -/
theorem words_joinSep_marker (p : List Char) (ps : List (List Char)) :
    words (joinSep marker (p :: ps)) =
      words p ++ (ps.map (fun x => words (marker ++ x))).flatten := by
  cases ps with
  | nil => simp [joinSep]
  | cons y r =>
    rw [joinSep_cons_cons]
    rw [show p ++ marker ++ joinSep marker (y :: r)
        = p ++ (marker ++ joinSep marker (y :: r)) by simp [List.append_assoc]]
    rw [words_append_marker]
    rw [words_marker_joinSep (y :: r) (by simp)]

theorem words_splitChar_flatten (ch : List Char) :
    ((splitChar '\n' ch).map words).flatten = words ch := by
  conv_rhs => rw [← joinSep_splitChar '\n' ch]
  rw [words_joinSep_flatten (by decide)]

/-- First packing pass preserves the word stream. -/
theorem pack1_words (maxLen : Nat) : ∀ (ps : List (List Char)) (cur : List Char),
    ((pack1 maxLen ps cur).map words).flatten =
      words cur ++ (ps.map (fun p => words (marker ++ p))).flatten := by
  intro ps
  induction ps with
  | nil =>
    intro cur
    by_cases hc : cur = []
    · subst hc
      simp [pack1]
    · simp [pack1, hc]
  | cons p ps' ih =>
    intro cur
    simp only [pack1]
    by_cases hc : cur = []
    · rw [if_pos hc, ih]
      rw [words_pyStrip, hc]
      simp
    · rw [if_neg hc]
      by_cases hfit : cur.length + 2 + (pyStrip (marker ++ p)).length ≤ maxLen
      · rw [if_pos hfit, ih]
        rw [show cur ++ '\n' :: '\n' :: pyStrip (marker ++ p)
            = cur ++ '\n' :: ('\n' :: pyStrip (marker ++ p)) from rfl]
        rw [words_append_space (by decide)]
        rw [words_cons_space _ (by decide)]
        rw [words_pyStrip]
        all_goals simp
      · rw [if_neg hfit]
        simp only [List.map_cons, List.flatten_cons]
        rw [ih, words_pyStrip]

/-- Second packing pass preserves the word stream, given that the
accumulator is empty or newline-terminated (the loop invariant). -/
theorem pack2_words (maxLen : Nat) : ∀ (lns : List (List Char)) (cur : List Char),
    (cur = [] ∨ ∃ cur', cur = cur' ++ ['\n']) →
    ((pack2 maxLen lns cur).map words).flatten
      = words cur ++ (lns.map words).flatten := by
  intro lns
  induction lns with
  | nil =>
    intro cur _
    by_cases hs : pyStrip cur = []
    · have hw : words cur = [] :=
        words_eq_nil_iff.mpr (pyStrip_eq_nil_iff.mp hs)
      simp [pack2, hs, hw]
    · simp [pack2, hs, words_pyStrip]
  | cons ln lns' ih =>
    intro cur hinv
    have hadd : words (ln ++ ['\n']) = words ln :=
      words_append_space_right _ (by intro x hx; simp at hx; subst hx; decide)
    have hcur_add : words (cur ++ (ln ++ ['\n'])) = words cur ++ words ln := by
      rcases hinv with rfl | ⟨cur', rfl⟩
      · rw [List.nil_append, hadd]
        simp
      · rw [show (cur' ++ ['\n']) ++ (ln ++ ['\n'])
            = cur' ++ '\n' :: (ln ++ ['\n']) by simp]
        rw [words_append_space (by decide), hadd]
        rw [words_append_space_right _ (by intro x hx; simp at hx; subst hx; decide)]
    simp only [pack2]
    by_cases hfit : cur.length + (ln ++ ['\n']).length ≤ maxLen
    · rw [if_pos hfit]
      rw [ih (cur ++ (ln ++ ['\n'])) (Or.inr ⟨cur ++ ln, by simp⟩)]
      rw [hcur_add]
      all_goals simp
    · rw [if_neg hfit]
      by_cases hs : pyStrip cur = []
      · rw [if_neg (by simp [hs])]
        rw [ih (ln ++ ['\n']) (Or.inr ⟨ln, rfl⟩)]
        have hw : words cur = [] :=
          words_eq_nil_iff.mpr (pyStrip_eq_nil_iff.mp hs)
        rw [hadd, hw]
        simp
      · rw [if_pos (by simp [hs])]
        simp only [List.map_cons, List.flatten_cons]
        rw [ih (ln ++ ['\n']) (Or.inr ⟨ln, rfl⟩)]
        rw [words_pyStrip, hadd]

theorem pyStrip_append_space {t : List Char} (a : List Char)
    (ht : ∀ x ∈ t, isSpaceChar x = true) :
    pyStrip (a ++ t) = pyStrip a := by
  unfold pyStrip
  by_cases hall : ∀ x ∈ a, isSpaceChar x = true
  · have h1 : (a ++ t).dropWhile isSpaceChar = [] := by
      rw [dropWhile_append_pos _ hall]
      exact List.dropWhile_eq_nil_iff.mpr ht
    have h2 : a.dropWhile isSpaceChar = [] :=
      List.dropWhile_eq_nil_iff.mpr hall
    rw [h1, h2]
  · push_neg at hall
    obtain ⟨x, hx, hpx⟩ := hall
    have hpx' : isSpaceChar x = false := by
      cases hb : isSpaceChar x
      · rfl
      · exact absurd hb hpx
    rw [dropWhile_append_neg _ ⟨x, hx, hpx'⟩]
    rw [List.reverse_append]
    rw [dropWhile_append_pos _ (by
      intro y hy
      exact ht y (List.mem_reverse.mp hy))]

theorem pack2_flush_ok {maxLen : Nat} {cur : List Char}
    (hinv : cur.length ≤ maxLen ∨ ∃ ln, cur = ln ++ ['\n'] ∧ '\n' ∉ ln) :
    (pyStrip cur).length ≤ maxLen ∨ ∀ c ∈ pyStrip cur, c ≠ '\n' := by
  rcases hinv with h | ⟨ln, rfl, hln⟩
  · exact Or.inl (le_trans (pyStrip_length_le cur) h)
  · right
    intro c hc hceq
    rw [pyStrip_append_space ln
      (by intro x hx; simp at hx; subst hx; decide)] at hc
    subst hceq
    exact hln (mem_pyStrip hc)

/-- Size invariant of the second packing pass: every emitted chunk fits
the limit or is a single (newline-free) line. -/
theorem pack2_size (maxLen : Nat) : ∀ (lns : List (List Char)) (cur : List Char),
    (∀ ln ∈ lns, '\n' ∉ ln) →
    (cur.length ≤ maxLen ∨ ∃ ln, cur = ln ++ ['\n'] ∧ '\n' ∉ ln) →
    ∀ ch ∈ pack2 maxLen lns cur, ch.length ≤ maxLen ∨ ∀ c ∈ ch, c ≠ '\n' := by
  intro lns
  induction lns with
  | nil =>
    intro cur _ hinv ch hch
    simp only [pack2] at hch
    by_cases hs : pyStrip cur ≠ []
    · rw [if_pos hs] at hch
      simp at hch
      subst hch
      exact pack2_flush_ok hinv
    · rw [if_neg hs] at hch
      simp at hch
  | cons ln lns' ih =>
    intro cur hlns hinv ch hch
    simp only [pack2] at hch
    by_cases hfit : cur.length + (ln ++ ['\n']).length ≤ maxLen
    · rw [if_pos hfit] at hch
      refine ih (cur ++ (ln ++ ['\n']))
        (fun l hl => hlns l (List.mem_cons_of_mem _ hl)) (Or.inl ?_) ch hch
      rw [List.length_append]
      exact hfit
    · rw [if_neg hfit] at hch
      have hln0 : '\n' ∉ ln := hlns ln (by simp)
      by_cases hs : pyStrip cur ≠ []
      · rw [if_pos hs] at hch
        rcases List.mem_cons.mp hch with rfl | hch
        · exact pack2_flush_ok hinv
        · exact ih (ln ++ ['\n'])
            (fun l hl => hlns l (List.mem_cons_of_mem _ hl))
            (Or.inr ⟨ln, rfl, hln0⟩) ch hch
      · rw [if_neg hs] at hch
        exact ih (ln ++ ['\n'])
          (fun l hl => hlns l (List.mem_cons_of_mem _ hl))
          (Or.inr ⟨ln, rfl, hln0⟩) ch hch

/-- Whitespace-collapsing canonical form of a text: its words joined by
single spaces.  Two texts with the same canonical form agree up to
whitespace normalization. -/
def canonWs (s : List Char) : List Char := joinSep [' '] (words s)

/-- The word stream of the chunker output equals the word stream of the
input. -/
theorem split_html_message_words (text : List Char) (L : Nat) :
    ((split_html_message text L).map words).flatten = words text := by
  unfold split_html_message
  by_cases h : text.length ≤ L
  · rw [if_pos h]
    simp
  · rw [if_neg h]
    cases hsp : splitMarker text with
    | nil => exact absurd hsp (splitMarker_ne_nil text)
    | cons p ps =>
      show ((List.map words ((pack1 L ps (pyStrip p)).flatMap
          (fun ch => if ch.length ≤ L then [ch]
            else pack2 L (splitChar '\n' ch) []))).flatten) = words text
      have hstep : ∀ (chunks : List (List Char)),
          (((chunks.flatMap (fun ch => if ch.length ≤ L then [ch]
              else pack2 L (splitChar '\n' ch) [])).map words).flatten)
            = ((chunks.map words).flatten) := by
        intro chunks
        induction chunks with
        | nil => rfl
        | cons c cs ihc =>
          rw [List.flatMap_cons, List.map_append, List.flatten_append, ihc]
          congr 1
          by_cases hle : c.length ≤ L
          · rw [if_pos hle]
            simp
          · rw [if_neg hle]
            rw [pack2_words L _ [] (Or.inl rfl)]
            rw [words_splitChar_flatten]
            simp
      rw [hstep]
      rw [pack1_words, words_pyStrip]
      conv_rhs => rw [← joinSep_splitMarker text, hsp]
      rw [words_joinSep_marker]

/-- C7: a payload within the limit is returned unchanged as a single
chunk; every produced chunk fits the limit except when it is a single
line (splitting never occurs inside a line); and the concatenation of the
chunks reproduces the original content up to whitespace normalization at
the split points. -/
theorem c7_chunker_bounds_and_content (text : List Char) (L : Nat) :
    (text.length ≤ L → split_html_message text L = [text])
    ∧ (∀ ch ∈ split_html_message text L, ch.length ≤ L ∨ ∀ c ∈ ch, c ≠ '\n')
    ∧ canonWs (joinSep [' '] (split_html_message text L)) = canonWs text := by
  refine ⟨?_, ?_, ?_⟩
  · intro h
    unfold split_html_message
    rw [if_pos h]
  · intro ch hch
    unfold split_html_message at hch
    by_cases h : text.length ≤ L
    · rw [if_pos h] at hch
      simp at hch
      subst hch
      exact Or.inl h
    · rw [if_neg h] at hch
      cases hsp : splitMarker text with
      | nil => exact absurd hsp (splitMarker_ne_nil text)
      | cons p ps =>
        rw [hsp] at hch
        have hch' : ch ∈ (pack1 L ps (pyStrip p)).flatMap
            (fun c0 => if c0.length ≤ L then [c0]
              else pack2 L (splitChar '\n' c0) []) := hch
        obtain ⟨ch₀, hch₀, hmem⟩ := List.mem_flatMap.mp hch'
        by_cases hle : ch₀.length ≤ L
        · rw [if_pos hle] at hmem
          simp at hmem
          subst hmem
          exact Or.inl hle
        · rw [if_neg hle] at hmem
          exact pack2_size L (splitChar '\n' ch₀) []
            (fun l hl => splitChar_mem_no_sep '\n' ch₀ l hl)
            (Or.inl (by simp)) ch hmem
  · unfold canonWs
    rw [words_joinSep_flatten (by decide), split_html_message_words]

/-- Witness for C7 at a concrete in-limit payload. -/
theorem c7_witness :
    split_html_message "abc".data 10 = ["abc".data] :=
  (c7_chunker_bounds_and_content "abc".data 10).1 (by decide)

end SafetyGlass
